import Mathlib

set_option maxRecDepth 40000

/-!
Shallow embedding of the crabkvs log-structured key-value store
(`src/lib.rs`): an append-only sequence of numbered segment files, an
in-memory KeyDir mapping keys to (reader handle, byte offset, timestamp),
segment rotation, replay at open, and compaction.

File-system model: files are inodes (contents survive unlinking, as on
Unix, so reader handles captured in the KeyDir keep working after
`fs::remove_file`); the directory maps numeric segment paths ("N.log")
to inodes.  A segment's content is a list of lines; a line is either a
well-formed serialized record or a malformed/partial line of a given
byte size.  Byte offsets are computed from the exact `serde_json`
encoding of each record (`{"Set":{"key":..,"value":..,"timestamp":..}}`
plus the trailing newline).
-/

namespace CrabKvs

/-- `MAX_SIZE` from src/lib.rs: maximum size of a segment file in bytes. -/
def MAX_SIZE : Nat := 4096

/-- `COMPACTION_THRESHOLD` from src/lib.rs. -/
def COMPACTION_THRESHOLD : Nat := 50 * 1024

/-- The `Command` enum from src/lib.rs (`Set`, `Get`, `Remove`).
`u128` timestamps are modelled as `Nat`. -/
inductive Command where
  | set (key value : String) (timestamp : Nat)
  | get (key : String)
  | remove (key value : String) (timestamp : Nat)
deriving DecidableEq, Repr

/-- Lowercase hex digit, as used by serde_json `\u00XX` escapes. -/
def hexDigit (n : Nat) : Char :=
  if n < 10 then Char.ofNat (48 + n) else Char.ofNat (87 + n)

/-- JSON string escaping as performed by `serde_json` on string fields. -/
def escapeChar (c : Char) : String :=
  if c = '"' then "\\\""
  else if c = '\\' then "\\\\"
  else if c = Char.ofNat 8 then "\\b"
  else if c = Char.ofNat 9 then "\\t"
  else if c = Char.ofNat 10 then "\\n"
  else if c = Char.ofNat 12 then "\\f"
  else if c = Char.ofNat 13 then "\\r"
  else if c.toNat < 32 then
    String.mk ['\\', 'u', '0', '0', hexDigit (c.toNat / 16), hexDigit (c.toNat % 16)]
  else String.singleton c

/-- JSON escaping of a whole string field. -/
def escapeString (s : String) : String := String.join (s.data.map escapeChar)

/-- The exact `serde_json::to_string` encoding of a `Command`
(externally tagged enum, fields in declaration order). -/
def encode : Command → String
  | .set k v t =>
      "\x7b\"Set\":\x7b\"key\":\"" ++ escapeString k ++ "\",\"value\":\"" ++
        escapeString v ++ "\",\"timestamp\":" ++ toString t ++ "\x7d\x7d"
  | .get k => "\x7b\"Get\":\x7b\"key\":\"" ++ escapeString k ++ "\"\x7d\x7d"
  | .remove k v t =>
      "\x7b\"Remove\":\x7b\"key\":\"" ++ escapeString k ++ "\",\"value\":\"" ++
        escapeString v ++ "\",\"timestamp\":" ++ toString t ++ "\x7d\x7d"

/-- `serde_json::to_string(entry)?.len()`: the serialized byte size of a
record, without the trailing newline. -/
def entrySize (c : Command) : Nat := (encode c).utf8ByteSize

/-- One line of a segment file: either a well-formed record line, or a
malformed / partial (crash-truncated) line of the given positive byte
size, which `serde_json::from_str` fails to parse. -/
inductive Entry where
  | good (c : Command)
  | junk (size : Nat)
deriving DecidableEq, Repr

/-- Byte size of one stored line as consumed by `read_line` (records are
written newline-terminated). -/
def lineSize : Entry → Nat
  | .good c => entrySize c + 1
  | .junk n => n

/-- Total byte size of a file's content (`metadata().len()`). -/
def contentSize : List Entry → Nat
  | [] => 0
  | e :: rest => lineSize e + contentSize rest

/-- The data directory: `inodes` holds file contents (contents survive
unlinking, so open handles keep reading them); `dir` maps numeric
segment paths (the `N` of `N.log`) to inodes. -/
structure Fs where
  inodes : List (List Entry)
  dir : List (Nat × Nat)
deriving DecidableEq, Repr

/-- First-match association lookup of a path in the directory. -/
def dirLookup : List (Nat × Nat) → Nat → Option Nat
  | [], _ => none
  | q :: rest, p => if q.1 = p then some q.2 else dirLookup rest p

/-- Remove every directory entry for a path (unlink). -/
def dirErase : List (Nat × Nat) → Nat → List (Nat × Nat)
  | [], _ => []
  | q :: rest, p => if q.1 = p then dirErase rest p else q :: dirErase rest p

/-- Resolve a path to its inode (`File::open` for reading). -/
def Fs.lookupPath (fs : Fs) (p : Nat) : Option Nat := dirLookup fs.dir p

/-- `OpenOptions::new().create(true).append(true).write(true).open(path)`:
reuse the existing file, or create a fresh empty inode for the path.
Returns the file system and the opened inode. -/
def Fs.createAppend (fs : Fs) (p : Nat) : Fs × Nat :=
  match fs.lookupPath p with
  | some i => (fs, i)
  | none => ({ inodes := fs.inodes ++ [[]], dir := fs.dir ++ [(p, fs.inodes.length)] },
             fs.inodes.length)

/-- Content of an inode. -/
def Fs.read (fs : Fs) (i : Nat) : List Entry := fs.inodes.getD i []

/-- Append one line to an inode (a flushed `write_all` of one record). -/
def Fs.append (fs : Fs) (i : Nat) (e : Entry) : Fs :=
  { fs with inodes := fs.inodes.set i (fs.inodes.getD i [] ++ [e]) }

/-- `fs::remove_file`: unlink a path; fails if the path is absent.
The inode's content survives for already-open handles. -/
def Fs.removeFile (fs : Fs) (p : Nat) : Option Fs :=
  match fs.lookupPath p with
  | some _ => some { fs with dir := dirErase fs.dir p }
  | none => none

/-- Size in bytes of the file behind an inode. -/
def fileSize (fs : Fs) (i : Nat) : Nat := contentSize (fs.read i)

/-- Insert a number into a sorted list (ascending). -/
def insertSorted (x : Nat) : List Nat → List Nat
  | [] => [x]
  | y :: ys => if x ≤ y then x :: y :: ys else y :: insertSorted x ys

/-- Insertion sort, ascending. -/
def sortNat : List Nat → List Nat
  | [] => []
  | x :: xs => insertSorted x (sortNat xs)

/-- `sorted_split_list` from src/lib.rs: the ascending list of numeric
segment indices present in the directory. -/
def sortedSplitList (fs : Fs) : List Nat := sortNat (fs.dir.map Prod.fst)

/-- The `MetaData` struct from src/lib.rs: a reader handle (the inode the
`BufReader<File>` was opened on), the byte offset of the record, and its
timestamp. -/
structure MetaData where
  reader : Nat
  pos : Nat
  timestamp : Nat
deriving DecidableEq, Repr

/-- The `KvStore` struct from src/lib.rs.  `writer` is the inode the
`BufWriter<File>` writes to and `writerPos` its stream position;
`active_log` is the path index of the active segment.  `journal` is pure
instrumentation, not program state: it records, in order, every record
appended through `write_to_log`, so that theorems can speak about what
was written. -/
structure KvStore where
  fs : Fs
  writer : Nat
  writerPos : Nat
  keydir : List (String × Option MetaData)
  current_split : Nat
  active_log : Nat
  total_log_size : Nat
  journal : List Command
deriving DecidableEq, Repr

/-- `HashMap::get`: first-match lookup in the KeyDir. -/
def kdLookup : List (String × Option MetaData) → String → Option (Option MetaData)
  | [], _ => none
  | q :: rest, k => if q.1 = k then some q.2 else kdLookup rest k

/-- `HashMap::insert`: replace the key's binding or append a new one. -/
def kdInsert : List (String × Option MetaData) → String → Option MetaData →
    List (String × Option MetaData)
  | [], k, v => [(k, v)]
  | q :: rest, k, v => if q.1 = k then (k, v) :: rest else q :: kdInsert rest k v

/-- `HashMap::remove`: drop the key's binding. -/
def kdErase : List (String × Option MetaData) → String → List (String × Option MetaData)
  | [], _ => []
  | q :: rest, k => if q.1 = k then kdErase rest k else q :: kdErase rest k

/-- Seek to a byte position and `read_line`, then parse: produces a line
only when the position is exactly the start of a stored line (a seek
into the middle of a line or past end-of-file yields content that fails
to parse as a record). -/
def readLineAt : List Entry → Nat → Option Entry
  | [], _ => none
  | e :: rest, pos =>
    if pos = 0 then some e
    else if pos < lineSize e then none
    else readLineAt rest (pos - lineSize e)

/-- `write_to_log` from src/lib.rs: append one record, rotating to a new
segment (path `current_split + 1`) when the new entry would push the
active file past `MAX_SIZE`.  Returns the new state and the returned
offset.  Note the source computes the returned offset from the writer's
stream position *before* switching writers, so on rotation it is the old
segment's offset.  (No fallible operation remains in the model: file
creation and serialization cannot fail here.) -/
def write_to_log (s : KvStore) (entry : Command) : KvStore × Nat :=
  let entry_size := entrySize entry
  let active_log_file_size := fileSize s.fs s.writer
  let total' := s.total_log_size + entry_size
  if entry_size + active_log_file_size > MAX_SIZE then
    let offset := s.writerPos
    let split' := s.current_split + 1
    let created := Fs.createAppend s.fs split'
    let fs2 := Fs.append created.1 created.2 (Entry.good entry)
    ({ s with
        fs := fs2, writer := created.2, writerPos := fileSize fs2 created.2,
        current_split := split', active_log := split',
        total_log_size := total', journal := s.journal ++ [entry] }, offset)
  else
    let offset := s.writerPos
    let fs2 := Fs.append s.fs s.writer (Entry.good entry)
    ({ s with
        fs := fs2, writerPos := fileSize fs2 s.writer,
        total_log_size := total', journal := s.journal ++ [entry] }, offset)

/-- Error outcomes of the store operations: `keyNotFound` is
`error::Error::KeyNotFound`; `incorrectFormat` is the
`anyhow!("incorrect format log entry")` of `get`; `ioError` stands for a
propagated I/O failure (e.g. `File::open` on a missing path);
`parseError` is a propagated `serde_json` failure during replay or
compaction; `panicked` marks `list.last().unwrap()` on an empty list. -/
inductive KvError where
  | keyNotFound
  | incorrectFormat
  | ioError
  | parseError
  | panicked
deriving DecidableEq, Repr

/-- `KvStore::get` from src/lib.rs: follow the KeyDir entry's reader to
its stored position; succeed only if a `Set` record parses there. -/
def KvStore.get (s : KvStore) (key : String) : Except KvError (Option String) :=
  match kdLookup s.keydir key with
  | some (some meta) =>
    match readLineAt (Fs.read s.fs meta.reader) meta.pos with
    | some (Entry.good (Command.set _ v _)) => .ok (some v)
    | _ => .error .incorrectFormat
  | _ => .ok none

/-- The per-line body of the compaction rewrite loop: a `Set` record read
from an old segment is re-appended through `write_to_log` only when the
KeyDir's current entry for its key carries exactly the record's
timestamp; `Remove` and `Get` records are dropped; a malformed line
aborts compaction with the propagated parse error. -/
def compactLines : KvStore → List Entry → Except KvError KvStore
  | s, [] => .ok s
  | s, e :: rest =>
    match e with
    | .junk _ => .error .parseError
    | .good c =>
      match c with
      | .set k v t =>
        match kdLookup s.keydir k with
        | some (some m) =>
          if m.timestamp = t then compactLines (write_to_log s (.set k v t)).1 rest
          else compactLines s rest
        | _ => compactLines s rest
      | .remove _ _ _ => compactLines s rest
      | .get _ => compactLines s rest

/-- The outer compaction loop over the listed segments, in ascending
order; each segment is opened for reading when the loop reaches it. -/
def compactSegs : KvStore → List Nat → Except KvError KvStore
  | s, [] => .ok s
  | s, i :: rest =>
    match Fs.lookupPath s.fs i with
    | none => .error .ioError
    | some ino =>
      match compactLines s (Fs.read s.fs ino) with
      | .error e => .error e
      | .ok s' => compactSegs s' rest

/-- The deletion loop at the end of compaction: unlink every listed
segment path. -/
def deleteSegs : Fs → List Nat → Option Fs
  | fs, [] => some fs
  | fs, i :: rest =>
    match Fs.removeFile fs i with
    | none => none
    | some fs' => deleteSegs fs' rest

/-- `KvStore::compaction` from src/lib.rs: open a fresh segment after the
highest current index, make it the writer, reset the size counter,
rewrite live records, then delete every segment that was listed.  Note
that neither `active_log` nor `current_split` nor the KeyDir is updated
(except by rotations occurring inside `write_to_log`). -/
def KvStore.compaction (s : KvStore) : Except KvError KvStore :=
  let list := sortedSplitList s.fs
  match list.getLast? with
  | none => .error .panicked
  | some last =>
    let created := Fs.createAppend s.fs (last + 1)
    let s1 := { s with
                fs := created.1, writer := created.2, writerPos := 0,
                total_log_size := 0 }
    match compactSegs s1 list with
    | .error e => .error e
    | .ok s2 =>
      match deleteSegs s2.fs list with
      | none => .error .ioError
      | some fs' => .ok { s2 with fs := fs' }

/-- `KvStore::set` from src/lib.rs: append a `Set` record, open a fresh
reader on `active_log` (which fails with an I/O error if that path no
longer exists), insert the KeyDir entry at the returned offset, then
possibly compact.  The wall-clock timestamp is passed in as `now`. -/
def KvStore.set (s : KvStore) (key value : String) (now : Nat) :
    Except KvError KvStore :=
  let wr := write_to_log s (Command.set key value now)
  match Fs.lookupPath wr.1.fs wr.1.active_log with
  | none => .error .ioError
  | some ino =>
    let meta : MetaData := { reader := ino, pos := wr.2, timestamp := now }
    let s2 := { wr.1 with keydir := kdInsert wr.1.keydir key (some meta) }
    if s2.total_log_size > COMPACTION_THRESHOLD then s2.compaction else .ok s2

/-- `KvStore::remove` from src/lib.rs: if a live KeyDir entry exists,
read back the record at its position; only when that record parses as a
`Set` is a `Remove` appended and the KeyDir entry overwritten with
`None` (note the key parsed from the record is used, not the argument);
otherwise the call silently returns `Ok`.  Without a live entry it fails
with `KeyNotFound`. -/
def KvStore.remove (s : KvStore) (key : String) (now : Nat) :
    Except KvError KvStore :=
  match kdLookup s.keydir key with
  | some (some meta) =>
    match readLineAt (Fs.read s.fs meta.reader) meta.pos with
    | some (Entry.good (Command.set k v _)) =>
      let wr := write_to_log s (Command.remove k v now)
      let s2 := { wr.1 with keydir := kdInsert wr.1.keydir k none }
      if s2.total_log_size > COMPACTION_THRESHOLD then s2.compaction else .ok s2
    | _ => .ok s
  | _ => .error .keyNotFound

/-- The per-line body of replay at `open`: a `Set` inserts a KeyDir entry
pointing at the line's start offset in this segment (with a reader on
this segment's file) and grows the size counter by the line's byte
length; a `Remove` deletes the key's entry; a `Get` is skipped; a
malformed line propagates a parse error.  After each line the writer is
seeked to the offset past the line. -/
def replayLines : KvStore → Nat → Nat → List Entry → Except KvError KvStore
  | s, _, _, [] => .ok s
  | s, ino, off, e :: rest =>
    match e with
    | .junk _ => .error .parseError
    | .good c =>
      let s1 :=
        match c with
        | .set k _ t =>
          { s with
            keydir := kdInsert s.keydir k
              (some { reader := ino, pos := off, timestamp := t }),
            total_log_size := s.total_log_size + lineSize e }
        | .remove k _ _ => { s with keydir := kdErase s.keydir k }
        | .get _ => s
      replayLines { s1 with writerPos := off + lineSize e } ino (off + lineSize e) rest

/-- Replay of all listed segments, in ascending order. -/
def replaySegs : KvStore → List Nat → Except KvError KvStore
  | s, [] => .ok s
  | s, i :: rest =>
    match Fs.lookupPath s.fs i with
    | none => .error .ioError
    | some ino =>
      match replayLines s ino 0 (Fs.read s.fs ino) with
      | .error e => .error e
      | .ok s' => replaySegs s' rest

/-- `KvStore::open` from src/lib.rs: list the segments, open (creating
if necessary) the highest-indexed segment — index 0 for a fresh
directory — as the active writer, then replay every listed segment into
the KeyDir. -/
def openStore (fs0 : Fs) : Except KvError KvStore :=
  let list := sortedSplitList fs0
  let index := match list.getLast? with | none => 0 | some i => i
  let created := Fs.createAppend fs0 index
  replaySegs { fs := created.1, writer := created.2, writerPos := 0, keydir := [],
               current_split := index, active_log := index, total_log_size := 0,
               journal := [] } list

/-! ### Specification-side definitions -/

/-- The key carried by a record. -/
def keyOf : Command → String
  | .set k _ _ => k
  | .get k => k
  | .remove k _ _ => k

/-- The well-formed records of a segment, in file order. -/
def recsOf : List Entry → List Command
  | [] => []
  | .good c :: rest => c :: recsOf rest
  | .junk _ :: rest => recsOf rest

/-- Content of the segment at a directory path (empty if the path is
absent). -/
def contentAtPath (fs : Fs) (p : Nat) : List Entry :=
  match fs.lookupPath p with
  | some i => fs.read i
  | none => []

/-- All records of the listed segments, in segment order then file
order. -/
def segRecords (fs : Fs) : List Nat → List Command
  | [] => []
  | i :: rest => recsOf (contentAtPath fs i) ++ segRecords fs rest

/-- All records on disk, in segment-then-byte order. -/
def allRecords (fs : Fs) : List Command := segRecords fs (sortedSplitList fs)

/-- The most recent record for a key in a record sequence. -/
def lastFor (k : String) (l : List Command) : Option Command :=
  l.foldl (fun acc c => if keyOf c = k then some c else acc) none

/-- Whether an optional record is a `Put` (`Command.set`). -/
def isPut : Option Command → Bool
  | some (.set _ _ _) => true
  | _ => false

/-- Whether the KeyDir holds a live entry for a key (a binding to actual
metadata; a binding to `None` counts as absent, as `get`/`remove`
treat it). -/
def kdHas (kd : List (String × Option MetaData)) (k : String) : Bool :=
  match kdLookup kd k with
  | some (some _) => true
  | _ => false

/-- The KeyDir invariant of the spec: a live index entry exists for a key
iff the most recent record for that key, in segment-then-byte order, is
a `Put`. -/
def StoreInv (s : KvStore) : Prop :=
  ∀ k, kdHas s.keydir k = isPut (lastFor k (allRecords s.fs))

/-- Whether a record is the never-persisted `Get` variant. -/
def isGetRec : Command → Bool
  | .get _ => true
  | _ => false

/-- The directory holds only persisted-schema records (`Put` and
`Tombstone`); the program never writes `Get` records. -/
def NoGetRecords (fs : Fs) : Prop :=
  ∀ p ∈ sortedSplitList fs, ∀ c ∈ recsOf (contentAtPath fs p), isGetRec c = false

/-- Directory well-formedness: distinct paths, distinct inodes, and all
inodes allocated. -/
def Fs.Wf (fs : Fs) : Prop :=
  (fs.dir.map Prod.fst).Nodup ∧ (fs.dir.map Prod.snd).Nodup ∧
    ∀ q ∈ fs.dir, q.2 < fs.inodes.length

/-- Store bookkeeping consistency: the writer is the file of the active
path, the active path is `current_split`, and no segment index exceeds
it.  This holds from `open` on and is preserved by `set`/`remove` while
no compaction runs; compaction breaks it by leaving `active_log` and
`current_split` stale. -/
def SWf (s : KvStore) : Prop :=
  s.fs.Wf ∧ Fs.lookupPath s.fs s.current_split = some s.writer ∧
    s.active_log = s.current_split ∧ ∀ q ∈ s.fs.dir, q.1 ≤ s.current_split

/-- The compaction liveness test of §4.5: does the KeyDir's current entry
for the key carry exactly this timestamp? -/
def tsMatches (kd : List (String × Option MetaData)) (k : String) (t : Nat) : Bool :=
  match kdLookup kd k with
  | some (some m) => if m.timestamp = t then true else false
  | _ => false

/-- The records of one segment that compaction re-appends: the `Put`
records passing the timestamp liveness test. -/
def liveRewrites (kd : List (String × Option MetaData)) : List Entry → List Command
  | [] => []
  | .good (.set k v t) :: rest =>
    if tsMatches kd k t then Command.set k v t :: liveRewrites kd rest
    else liveRewrites kd rest
  | _ :: rest => liveRewrites kd rest

/-- The re-appended records of the listed segments, in order. -/
def segRewrites (kd : List (String × Option MetaData)) (fs : Fs) : List Nat → List Command
  | [] => []
  | i :: rest => liveRewrites kd (contentAtPath fs i) ++ segRewrites kd fs rest

/-- Everything a completed compaction of `s` re-appends through the Log
Writer, in order. -/
def compactionRewrites (s : KvStore) : List Command :=
  segRewrites s.keydir s.fs (sortedSplitList s.fs)

/-- The serialized size of the tombstone that `remove` would append for
this key in this store (0 when `remove` would not append one). -/
def removedEntrySize (s : KvStore) (key : String) (now : Nat) : Nat :=
  match kdLookup s.keydir key with
  | some (some m) =>
    match readLineAt (Fs.read s.fs m.reader) m.pos with
    | some (Entry.good (Command.set k2 v2 _)) => entrySize (Command.remove k2 v2 now)
    | _ => 0
  | _ => 0

/-- Invariant threaded through the compaction rewrite pass, relative to
the pre-compaction store `s`: the KeyDir is untouched; the listed
segments still resolve to their original inodes with their original
contents; the writer never aliases a listed segment's inode; the
directory stays inode-distinct and allocated; `current_split` only
grows, and `active_log` moves only when it does. -/
def PassInv (s x : KvStore) : Prop :=
  x.keydir = s.keydir ∧
  (∀ p ∈ sortedSplitList s.fs, Fs.lookupPath x.fs p = Fs.lookupPath s.fs p) ∧
  (∀ p ∈ sortedSplitList s.fs, ∀ i, Fs.lookupPath s.fs p = some i →
    Fs.read x.fs i = Fs.read s.fs i ∧ x.writer ≠ i) ∧
  (x.fs.dir.map Prod.snd).Nodup ∧
  (∀ q ∈ x.fs.dir, q.2 < x.fs.inodes.length) ∧
  x.writer < x.fs.inodes.length ∧
  s.current_split ≤ x.current_split ∧
  (x.current_split = s.current_split → x.active_log = s.active_log)

/-! ### Concrete scenarios -/

/-- A fresh, empty data directory. -/
def emptyFs : Fs := { inodes := [], dir := [] }

/-- Placeholder state used to project a store out of an `Except` result;
every theorem using it also asserts that the result was `ok`. -/
def deadState : KvStore :=
  { fs := emptyFs, writer := 0, writerPos := 0, keydir := [], current_split := 0,
    active_log := 0, total_log_size := 0, journal := [] }

/-- Project the store out of an operation result. -/
def orDead : Except KvError KvStore → KvStore
  | .ok s => s
  | .error _ => deadState

/-- Whether an operation result is `Ok`. -/
def isOkB : Except KvError KvStore → Bool
  | .ok _ => true
  | .error _ => false

/-- Test driver: perform `n` successive `set "a" "b"` calls (timestamp
1), stopping at the first error. -/
def runSets : Nat → KvStore → Except KvError KvStore
  | 0, s => .ok s
  | n + 1, s =>
    match s.set "a" "b" 1 with
    | .ok s' => runSets n s'
    | .error e => .error e

/-- The result of opening a fresh directory and performing 89 small
successful `set "a" "b"` calls: the active segment `0.log` ends up
holding 4094 bytes, 2 bytes below the rotation threshold for the next
record. -/
def preRotRes : Except KvError KvStore :=
  match openStore emptyFs with
  | .ok s0 => runSets 89 s0
  | .error e => .error e

/-- The store after those 89 sets. -/
def preRot : KvStore := orDead preRotRes

/-- The result of one further `set "k" "vv"` on `preRot`; this append
triggers rotation to segment `1.log`. -/
def rotRes : Except KvError KvStore := preRot.set "k" "vv" 90

/-- The store after the rotating set. -/
def rotStore : KvStore := orDead rotRes

/-- The result of `remove "k"` on the post-rotation store. -/
def remRes : Except KvError KvStore := rotStore.remove "k" 95

/-- The store after that remove. -/
def remStore : KvStore := orDead remRes

/-- The store obtained by closing `remStore` and reopening its
directory. -/
def reopenedStore : KvStore := orDead (openStore remStore.fs)

/-- A one-segment directory: `0.log` holds a single `Put` for key
`"a"`. -/
def fsC : Fs := { inodes := [[Entry.good (Command.set "a" "b" 5)]], dir := [(0, 0)] }

/-- The store obtained by opening `fsC`. -/
def sC : KvStore := orDead (openStore fsC)

/-- The result of compacting `sC`. -/
def sCcomp : KvStore := orDead sC.compaction

/-- A directory whose single segment ends in a malformed / partial
trailing line of 7 bytes after one well-formed record. -/
def fsJ : Fs := { inodes := [[Entry.good (Command.set "a" "b" 1), Entry.junk 7]], dir := [(0, 0)] }

/-- The same directory with only the well-formed prefix. -/
def fsG : Fs := { inodes := [[Entry.good (Command.set "a" "b" 1)]], dir := [(0, 0)] }

/-- A 200-byte filler value. -/
def fillVal : String := String.mk (List.replicate 200 'b')

/-- A distinct 200-byte value for the last, live write. -/
def liveVal : String := String.mk (List.replicate 200 'c')

/-- Test driver: perform `n` successive `set "a" fillVal` calls
(timestamp 1), stopping at the first error. -/
def runFill : Nat → KvStore → Except KvError KvStore
  | 0, s => .ok s
  | n + 1, s =>
    match s.set "a" fillVal 1 with
    | .ok s' => runFill n s'
    | .error e => .error e

/-- A reachable execution crossing the compaction threshold: open a
fresh directory, perform 209 successful 244-byte sets of key `"a"`,
then one more set of `"a"` with a fresh timestamp; its cumulative size
(51240 bytes) crosses `COMPACTION_THRESHOLD`, so compaction runs inside
that set, rewriting the single live record and deleting segments 0–13,
while `active_log`/`current_split` stay at the deleted segment 13. -/
def c8chainRes : Except KvError KvStore :=
  match openStore emptyFs with
  | .error e => .error e
  | .ok s0 =>
    match runFill 209 s0 with
    | .error e => .error e
    | .ok s1 => s1.set "a" liveVal 2

/-- The store after that chain: its active path names the deleted
segment `13.log`. -/
def c8post : KvStore := orDead c8chainRes

/-- The caller's store after the next `set "x" "v"` call fails.  In the
source, `set` takes `&mut self`: it appends the `Put` through
`write_to_log`, then errors opening the stale `active_log` — the call
returns `Err`, but the append persists in the caller's store.  The
model's `set` reports exactly this error (see `set_fails_ioError`); the
retained state is the first component of that `write_to_log`. -/
def c8afterFailedSet : KvStore := (write_to_log c8post (Command.set "x" "v" 3)).1

/-- The result of the following `remove "a"`, which completes: it reads
back the live `Put` for `"a"`, appends its tombstone and clears the
entry. -/
def c8removeRes : Except KvError KvStore := c8afterFailedSet.remove "a" 4

/-- The store at that completed remove. -/
def c8viol : KvStore := orDead c8removeRes

/-- Witness chain for the KeyDir invariant: open `fsG`. -/
def sW : KvStore := orDead (openStore fsG)

/-- Then set a key. -/
def sW2 : KvStore := orDead (sW.set "x" "y" 3)

/-- Then remove it. -/
def sW3 : KvStore := orDead (sW2.remove "x" 4)

end CrabKvs

deriving instance DecidableEq for Except

namespace CrabKvs

instance (fs : Fs) : Decidable fs.Wf := by
  unfold Fs.Wf
  infer_instance

instance (s : KvStore) : Decidable (SWf s) := by
  unfold SWf
  infer_instance

instance (fs : Fs) : Decidable (NoGetRecords fs) := by
  unfold NoGetRecords
  infer_instance

instance (s x : KvStore) : Decidable (PassInv s x) := by
  unfold PassInv
  infer_instance

/-! ### Basic list lemmas -/

theorem getD_set_eq {α : Type} (l : List α) (i : Nat) (a d : α) (h : i < l.length) :
    (l.set i a).getD i d = a := by
  induction l generalizing i with
  | nil => simp at h
  | cons b t ih =>
    cases i with
    | zero => simp [List.getD]
    | succ j =>
      simp only [List.set, List.getD_cons_succ]
      exact ih j (by simpa using h)

theorem getD_set_ne {α : Type} (l : List α) (i j : Nat) (a d : α) (h : i ≠ j) :
    (l.set i a).getD j d = l.getD j d := by
  induction l generalizing i j with
  | nil => simp [List.getD]
  | cons b t ih =>
    cases i with
    | zero =>
      cases j with
      | zero => exact absurd rfl h
      | succ m => simp [List.getD]
    | succ n =>
      cases j with
      | zero => simp [List.getD]
      | succ m =>
        simp only [List.set, List.getD_cons_succ]
        exact ih n m (fun hc => h (by rw [hc]))

theorem getD_append_lt {α : Type} (l l2 : List α) (i : Nat) (d : α) (h : i < l.length) :
    (l ++ l2).getD i d = l.getD i d := by
  induction l generalizing i with
  | nil => simp at h
  | cons b t ih =>
    cases i with
    | zero => simp [List.getD]
    | succ j =>
      simp only [List.cons_append, List.getD_cons_succ]
      exact ih j (by simpa using h)

/-! ### Directory lookup lemmas -/

theorem dirLookup_eq_none_of_not_mem (d : List (Nat × Nat)) (p : Nat)
    (h : p ∉ d.map Prod.fst) : dirLookup d p = none := by
  induction d with
  | nil => rfl
  | cons q rest ih =>
    have h1 : ¬ q.1 = p := fun hc => h (by simp [hc])
    have h2 : p ∉ rest.map Prod.fst := fun hc => h (by simp [hc])
    simp only [dirLookup, if_neg h1]
    exact ih h2

theorem dirLookup_isSome_of_mem (d : List (Nat × Nat)) (p : Nat)
    (h : p ∈ d.map Prod.fst) : ∃ i, dirLookup d p = some i := by
  induction d with
  | nil => simp at h
  | cons q rest ih =>
    by_cases hq : q.1 = p
    · exact ⟨q.2, by simp [dirLookup, hq]⟩
    · simp only [List.map_cons, List.mem_cons] at h
      rcases h with h | h
      · exact absurd h.symm hq
      · obtain ⟨i, hi⟩ := ih h
        exact ⟨i, by simp [dirLookup, hq, hi]⟩

theorem dirLookup_mem (d : List (Nat × Nat)) (p i : Nat)
    (h : dirLookup d p = some i) : (p, i) ∈ d := by
  induction d with
  | nil => simp [dirLookup] at h
  | cons q rest ih =>
    by_cases hq : q.1 = p
    · simp only [dirLookup, if_pos hq] at h
      cases h
      have hqe : (p, q.2) = q := by
        cases q
        simp_all
      rw [hqe]
      exact List.mem_cons_self _ _
    · simp only [dirLookup, if_neg hq] at h
      exact List.mem_cons_of_mem _ (ih h)

theorem dirLookup_append_left (d d2 : List (Nat × Nat)) (p i : Nat)
    (h : dirLookup d p = some i) : dirLookup (d ++ d2) p = some i := by
  induction d with
  | nil => simp [dirLookup] at h
  | cons q rest ih =>
    by_cases hq : q.1 = p
    · simp_all [dirLookup]
    · simp_all [dirLookup]

theorem dirLookup_append_right (d d2 : List (Nat × Nat)) (p : Nat)
    (h : dirLookup d p = none) : dirLookup (d ++ d2) p = dirLookup d2 p := by
  induction d with
  | nil => rfl
  | cons q rest ih =>
    by_cases hq : q.1 = p
    · simp [dirLookup, hq] at h
    · simp only [dirLookup, if_neg hq] at h
      simp only [List.cons_append, dirLookup, if_neg hq]
      exact ih h

theorem dirLookup_ne_of_nodup (d : List (Nat × Nat)) (p q i j : Nat)
    (hn : (d.map Prod.snd).Nodup) (hpq : p ≠ q)
    (hp : dirLookup d p = some i) (hq : dirLookup d q = some j) : i ≠ j := by
  induction d with
  | nil => simp [dirLookup] at hp
  | cons e rest ih =>
    simp only [List.map_cons, List.nodup_cons] at hn
    by_cases hep : e.1 = p
    · simp only [dirLookup, if_pos hep] at hp
      cases hp
      have heq : e.1 = q → False := fun hc => hpq (hep ▸ hc ▸ rfl)
      simp only [dirLookup, if_neg (fun hc => heq hc)] at hq
      intro hij
      exact hn.1 (hij ▸ List.mem_map_of_mem Prod.snd (dirLookup_mem rest q j hq))
    · simp only [dirLookup, if_neg hep] at hp
      by_cases heq : e.1 = q
      · simp only [dirLookup, if_pos heq] at hq
        cases hq
        intro hij
        exact hn.1 (hij ▸ List.mem_map_of_mem Prod.snd (dirLookup_mem rest p i hp))
      · simp only [dirLookup, if_neg heq] at hq
        exact ih hn.2 hp hq

theorem dirLookup_erase_self (d : List (Nat × Nat)) (p : Nat) :
    dirLookup (dirErase d p) p = none := by
  induction d with
  | nil => rfl
  | cons q rest ih =>
    by_cases hq : q.1 = p
    · simpa [dirErase, hq] using ih
    · simpa [dirErase, dirLookup, hq] using ih

theorem dirLookup_erase_none (d : List (Nat × Nat)) (p q : Nat)
    (h : dirLookup d q = none) : dirLookup (dirErase d p) q = none := by
  induction d with
  | nil => rfl
  | cons e rest ih =>
    by_cases hep : e.1 = p
    · by_cases heq : e.1 = q
      · simp [dirLookup, heq] at h
      · simp only [dirLookup, if_neg heq] at h
        simpa [dirErase, hep] using ih h
    · by_cases heq : e.1 = q
      · simp [dirLookup, heq] at h
      · simp only [dirLookup, if_neg heq] at h
        simpa [dirErase, dirLookup, hep, heq] using ih h

/-! ### KeyDir lookup lemmas -/

theorem kdLookup_insert_self (kd : List (String × Option MetaData)) (k : String)
    (v : Option MetaData) : kdLookup (kdInsert kd k v) k = some v := by
  induction kd with
  | nil => simp [kdInsert, kdLookup]
  | cons q rest ih =>
    by_cases hq : q.1 = k
    · simp [kdInsert, kdLookup, hq]
    · simpa [kdInsert, kdLookup, hq] using ih

theorem kdLookup_insert_ne (kd : List (String × Option MetaData)) (k k' : String)
    (v : Option MetaData) (h : k' ≠ k) :
    kdLookup (kdInsert kd k v) k' = kdLookup kd k' := by
  have hkk' : ¬ k = k' := fun hc => h hc.symm
  induction kd with
  | nil => simp [kdInsert, kdLookup, hkk']
  | cons q rest ih =>
    by_cases hq : q.1 = k
    · have hq' : ¬ q.1 = k' := fun hc => h (hc.symm.trans hq)
      simp only [kdInsert, if_pos hq, kdLookup, if_neg hkk', if_neg hq']
    · by_cases hq' : q.1 = k'
      · simp only [kdInsert, if_neg hq, kdLookup, if_pos hq']
      · simp only [kdInsert, if_neg hq, kdLookup, if_neg hq']
        exact ih

theorem kdLookup_erase_self (kd : List (String × Option MetaData)) (k : String) :
    kdLookup (kdErase kd k) k = none := by
  induction kd with
  | nil => rfl
  | cons q rest ih =>
    by_cases hq : q.1 = k
    · simpa [kdErase, hq] using ih
    · simpa [kdErase, kdLookup, hq] using ih

theorem kdLookup_erase_ne (kd : List (String × Option MetaData)) (k k' : String)
    (h : k' ≠ k) : kdLookup (kdErase kd k) k' = kdLookup kd k' := by
  induction kd with
  | nil => rfl
  | cons q rest ih =>
    by_cases hq : q.1 = k
    · have hq' : ¬ q.1 = k' := fun hc => h (hc.symm.trans hq)
      simp only [kdErase, if_pos hq, kdLookup, if_neg hq']
      exact ih
    · by_cases hq' : q.1 = k'
      · simp only [kdErase, if_neg hq, kdLookup, if_pos hq']
      · simp only [kdErase, if_neg hq, kdLookup, if_neg hq']
        exact ih

theorem kdLookup_none_of_not_mem (kd : List (String × Option MetaData)) (k : String)
    (h : k ∉ kd.map Prod.fst) : kdLookup kd k = none := by
  induction kd with
  | nil => rfl
  | cons q rest ih =>
    have h1 : ¬ q.1 = k := fun hc => h (by simp [hc])
    have h2 : k ∉ rest.map Prod.fst := fun hc => h (by simp [hc])
    simp only [kdLookup, if_neg h1]
    exact ih h2

/-! ### Sorting lemmas -/

theorem insertSorted_perm (x : Nat) (l : List Nat) :
    List.Perm (insertSorted x l) (x :: l) := by
  induction l with
  | nil => exact List.Perm.refl _
  | cons y ys ih =>
    by_cases hx : x ≤ y
    · simp only [insertSorted, if_pos hx]
      exact List.Perm.refl _
    · simp only [insertSorted, if_neg hx]
      exact (ih.cons y).trans (List.Perm.swap x y ys)

theorem sortNat_perm (l : List Nat) : List.Perm (sortNat l) l := by
  induction l with
  | nil => exact List.Perm.refl _
  | cons x xs ih => exact (insertSorted_perm x (sortNat xs)).trans (ih.cons x)

theorem mem_sortNat (x : Nat) (l : List Nat) : x ∈ sortNat l ↔ x ∈ l :=
  (sortNat_perm l).mem_iff

theorem nodup_sortNat (l : List Nat) (h : l.Nodup) : (sortNat l).Nodup :=
  (sortNat_perm l).nodup_iff.mpr h

theorem pairwise_insertSorted (x : Nat) (l : List Nat)
    (h : l.Pairwise (· ≤ ·)) : (insertSorted x l).Pairwise (· ≤ ·) := by
  induction l with
  | nil => simp [insertSorted]
  | cons y ys ih =>
    rcases List.pairwise_cons.mp h with ⟨hy, hys⟩
    by_cases hx : x ≤ y
    · simp only [insertSorted, if_pos hx]
      exact List.pairwise_cons.mpr
        ⟨fun z hz => by
          rcases List.mem_cons.mp hz with hz | hz
          · omega
          · exact le_trans hx (hy z hz), h⟩
    · simp only [insertSorted, if_neg hx]
      exact List.pairwise_cons.mpr
        ⟨fun z hz => by
          rcases List.mem_cons.mp ((insertSorted_perm x ys).mem_iff.mp hz) with rfl | hz
          · omega
          · exact hy z hz, ih hys⟩

theorem pairwise_sortNat (l : List Nat) : (sortNat l).Pairwise (· ≤ ·) := by
  induction l with
  | nil => simp [sortNat]
  | cons x xs ih => exact pairwise_insertSorted x (sortNat xs) ih

theorem insertSorted_append_single (a x : Nat) (m : List Nat) (h : a < x) :
    insertSorted a (m ++ [x]) = insertSorted a m ++ [x] := by
  induction m with
  | nil => simp [insertSorted, Nat.le_of_lt h, Nat.not_le.mpr h]
  | cons b m' ih =>
    by_cases hb : a ≤ b
    · simp [insertSorted, hb]
    · simp only [List.cons_append, insertSorted, if_neg hb, List.append_eq]
      rw [ih]

theorem sortNat_append_single (x : Nat) (l : List Nat) (h : ∀ y ∈ l, y < x) :
    sortNat (l ++ [x]) = sortNat l ++ [x] := by
  induction l with
  | nil => rfl
  | cons a l' ih =>
    have ha : a < x := h a (List.mem_cons_self a l')
    calc sortNat ((a :: l') ++ [x]) = insertSorted a (sortNat (l' ++ [x])) := rfl
      _ = insertSorted a (sortNat l' ++ [x]) := by
        rw [ih (fun y hy => h y (List.mem_cons_of_mem a hy))]
      _ = insertSorted a (sortNat l') ++ [x] := insertSorted_append_single a x _ ha
      _ = sortNat (a :: l') ++ [x] := rfl

theorem sorted_max_decomp (L : List Nat) (m : Nat) (hs : L.Pairwise (· ≤ ·))
    (hn : L.Nodup) (hm : m ∈ L) (hb : ∀ p ∈ L, p ≤ m) :
    ∃ L', L = L' ++ [m] ∧ ∀ p ∈ L', p < m := by
  induction L with
  | nil => simp at hm
  | cons a t ih =>
    rcases List.pairwise_cons.mp hs with ⟨ha, ht⟩
    rcases List.nodup_cons.mp hn with ⟨hna, hnt⟩
    cases t with
    | nil =>
      rcases List.mem_singleton.mp hm with rfl
      exact ⟨[], rfl, by simp⟩
    | cons b t' =>
      have hmt : m ∈ b :: t' := by
        rcases List.mem_cons.mp hm with rfl | hmem
        · have hb' : b ≤ m := hb b (by simp)
          have hmb : m ≤ b := ha b (by simp)
          have : m = b := Nat.le_antisymm hmb hb'
          rw [this]
          simp
        · exact hmem
      obtain ⟨L'', hL, hlt⟩ := ih ht hnt hmt (fun p hp => hb p (List.mem_cons_of_mem a hp))
      refine ⟨a :: L'', by rw [hL, List.cons_append], fun p hp => ?_⟩
      rcases List.mem_cons.mp hp with rfl | hp'
      · have hpm : p ≤ m := hb p (List.mem_cons_self p _)
        have hne : p ≠ m := by
          intro hc
          subst hc
          exact hna (by rw [hL]; simp)
        omega
      · exact hlt p hp'

theorem le_getLast_of_sorted (L : List Nat) (m : Nat)
    (hs : L.Pairwise (· ≤ ·)) (hm : L.getLast? = some m) : ∀ p ∈ L, p ≤ m := by
  induction L with
  | nil => simp at hm
  | cons a t ih =>
    cases t with
    | nil =>
      simp only [List.getLast?_singleton, Option.some_inj] at hm
      subst hm
      simp
    | cons b t' =>
      rcases List.pairwise_cons.mp hs with ⟨ha, ht⟩
      have hm' : (b :: t').getLast? = some m := by
        rwa [List.getLast?_cons_cons] at hm
      intro p hp
      rcases List.mem_cons.mp hp with rfl | hp'
      · have hmm : m ∈ b :: t' := by
          have := List.getLast?_eq_getLast (b :: t') (by simp)
          rw [this] at hm'
          exact Option.some_inj.mp hm' ▸ List.getLast_mem (by simp)
        exact ha m hmm
      · exact ih ht hm' p hp'

/-! ### Record list lemmas -/

theorem recsOf_append (l1 l2 : List Entry) :
    recsOf (l1 ++ l2) = recsOf l1 ++ recsOf l2 := by
  induction l1 with
  | nil => rfl
  | cons e rest ih =>
    cases e with
    | good c => simp [recsOf, ih]
    | junk n => simp [recsOf, ih]

theorem segRecords_append (fs : Fs) (L1 L2 : List Nat) :
    segRecords fs (L1 ++ L2) = segRecords fs L1 ++ segRecords fs L2 := by
  induction L1 with
  | nil => rfl
  | cons i rest ih => simp [segRecords, ih]

theorem segRecords_congr (fs1 fs2 : Fs) (L : List Nat)
    (h : ∀ p ∈ L, contentAtPath fs1 p = contentAtPath fs2 p) :
    segRecords fs1 L = segRecords fs2 L := by
  induction L with
  | nil => rfl
  | cons i rest ih =>
    simp only [segRecords]
    rw [h i (List.mem_cons_self i rest), ih (fun p hp => h p (List.mem_cons_of_mem i hp))]

theorem lastFor_append_single (k : String) (R : List Command) (c : Command) :
    lastFor k (R ++ [c]) = if keyOf c = k then some c else lastFor k R := by
  simp [lastFor, List.foldl_append]

theorem lastFor_none_of_not_mem (k : String) (l : List Command)
    (h : ∀ c ∈ l, keyOf c ≠ k) : lastFor k l = none := by
  have aux : ∀ (l' : List Command), (∀ c ∈ l', keyOf c ≠ k) →
      ∀ acc : Option Command,
        l'.foldl (fun acc c => if keyOf c = k then some c else acc) acc = acc →
        True := fun _ _ _ _ => trivial
  induction l with
  | nil => rfl
  | cons c rest ih =>
    have hc : keyOf c ≠ k := h c (List.mem_cons_self c rest)
    simp only [lastFor, List.foldl_cons, if_neg hc]
    exact ih (fun d hd => h d (List.mem_cons_of_mem c hd))

/-! ### File-system operation lemmas -/

theorem lookupPath_fsAppend (fs : Fs) (i : Nat) (e : Entry) (p : Nat) :
    (Fs.append fs i e).lookupPath p = fs.lookupPath p := rfl

theorem dir_fsAppend (fs : Fs) (i : Nat) (e : Entry) : (Fs.append fs i e).dir = fs.dir := rfl

theorem length_fsAppend (fs : Fs) (i : Nat) (e : Entry) :
    (Fs.append fs i e).inodes.length = fs.inodes.length := by
  simp [Fs.append]

theorem read_fsAppend_self (fs : Fs) (i : Nat) (e : Entry) (h : i < fs.inodes.length) :
    (Fs.append fs i e).read i = fs.read i ++ [e] := by
  unfold Fs.append Fs.read
  exact getD_set_eq _ _ _ _ h

theorem read_fsAppend_ne (fs : Fs) (i j : Nat) (e : Entry) (h : j ≠ i) :
    (Fs.append fs i e).read j = fs.read j := by
  unfold Fs.append Fs.read
  exact getD_set_ne _ _ _ _ _ (fun hc => h hc.symm)

theorem createAppend_found (fs : Fs) (p i : Nat) (h : fs.lookupPath p = some i) :
    fs.createAppend p = (fs, i) := by
  unfold Fs.createAppend
  rw [h]

theorem createAppend_missing (fs : Fs) (p : Nat) (h : fs.lookupPath p = none) :
    fs.createAppend p =
      ({ inodes := fs.inodes ++ [[]], dir := fs.dir ++ [(p, fs.inodes.length)] },
        fs.inodes.length) := by
  unfold Fs.createAppend
  rw [h]

/-! ### Log Writer lemmas -/

theorem wtl_keydir (s : KvStore) (c : Command) :
    (write_to_log s c).1.keydir = s.keydir := by
  unfold write_to_log
  dsimp only
  split <;> rfl

theorem wtl_journal (s : KvStore) (c : Command) :
    (write_to_log s c).1.journal = s.journal ++ [c] := by
  unfold write_to_log
  dsimp only
  split <;> rfl

theorem wtl_total (s : KvStore) (c : Command) :
    (write_to_log s c).1.total_log_size = s.total_log_size + entrySize c := by
  unfold write_to_log
  dsimp only
  split <;> rfl

/-- Preservation of the compaction pass invariant by one `write_to_log`
call, given that every listed segment index is at most the
pre-compaction `current_split`. -/
theorem wtl_passinv (s x : KvStore) (c : Command)
    (hcs : ∀ p ∈ sortedSplitList s.fs, p ≤ s.current_split)
    (hinv : PassInv s x) : PassInv s (write_to_log x c).1 := by
  obtain ⟨h1, h2, h3, h4, h5, h6, h7, h8⟩ := hinv
  unfold write_to_log
  dsimp only
  split
  · -- rotation: a new segment current_split + 1 becomes the writer
    next hcond =>
    have hne : ∀ p ∈ sortedSplitList s.fs, p ≠ x.current_split + 1 := by
      intro p hp
      have := hcs p hp
      omega
    cases hfind : Fs.lookupPath x.fs (x.current_split + 1) with
    | some j =>
      rw [createAppend_found _ _ _ hfind]
      have hjlt : j < x.fs.inodes.length := by
        have hmem := dirLookup_mem _ _ _ hfind
        exact h5 _ hmem
      refine ⟨h1, ?_, ?_, h4, ?_, ?_,
        by show s.current_split ≤ x.current_split + 1; omega,
        by intro hc; have hx : x.current_split + 1 = s.current_split := hc; omega⟩
      · intro p hp
        rw [lookupPath_fsAppend]
        exact h2 p hp
      · intro p hp i hi
        have hxi : Fs.lookupPath x.fs p = some i := (h2 p hp).trans hi
        have hij : i ≠ j :=
          dirLookup_ne_of_nodup x.fs.dir p (x.current_split + 1) i j h4
            (hne p hp) hxi hfind
        constructor
        · rw [read_fsAppend_ne _ _ _ _ hij]
          exact (h3 p hp i hi).1
        · exact fun hc => hij hc.symm
      · intro q hq
        rw [dir_fsAppend] at hq
        rw [length_fsAppend]
        exact h5 q hq
      · rw [length_fsAppend]
        exact hjlt
    | none =>
      rw [createAppend_missing _ _ hfind]
      dsimp only
      refine ⟨h1, ?_, ?_, ?_, ?_, ?_,
        by show s.current_split ≤ x.current_split + 1; omega,
        by intro hc; have hx : x.current_split + 1 = s.current_split := hc; omega⟩
      · intro p hp
        rw [lookupPath_fsAppend]
        cases hxp : Fs.lookupPath x.fs p with
        | some i =>
          show dirLookup (x.fs.dir ++ [(x.current_split + 1, x.fs.inodes.length)]) p = _
          rw [dirLookup_append_left _ _ _ _ hxp]
          exact hxp ▸ (h2 p hp).symm ▸ (h2 p hp)
        | none =>
          show dirLookup (x.fs.dir ++ [(x.current_split + 1, x.fs.inodes.length)]) p = _
          rw [dirLookup_append_right _ _ _ hxp]
          rw [← h2 p hp, hxp]
          have hnp : ¬ (x.current_split + 1 = p) := fun hc => (hne p hp) hc.symm
          simp [dirLookup, hnp]
      · intro p hp i hi
        have hxi : Fs.lookupPath x.fs p = some i := (h2 p hp).trans hi
        have hilt : i < x.fs.inodes.length := h5 _ (dirLookup_mem _ _ _ hxi)
        constructor
        · have hin : i ≠ x.fs.inodes.length := by omega
          rw [read_fsAppend_ne _ _ _ _ hin]
          show (x.fs.inodes ++ [[]]).getD i [] = _
          rw [getD_append_lt _ _ _ _ hilt]
          exact (h3 p hp i hi).1
        · intro hc
          have hx : x.fs.inodes.length = i := hc
          omega
      · show ((x.fs.dir ++ [(x.current_split + 1, x.fs.inodes.length)]).map Prod.snd).Nodup
        rw [List.map_append]
        rw [List.nodup_append]
        refine ⟨h4, by simp, ?_⟩
        intro a ha hb
        simp only [List.map_cons, List.map_nil, List.mem_singleton] at hb
        subst hb
        obtain ⟨q, hq, hqa⟩ := List.mem_map.mp ha
        have := h5 q hq
        omega
      · intro q hq
        rw [dir_fsAppend] at hq
        rw [length_fsAppend]
        show q.2 < (x.fs.inodes ++ [[]]).length
        rcases List.mem_append.mp hq with hq | hq
        · have := h5 q hq
          simp only [List.length_append, List.length_singleton]
          omega
        · simp only [List.mem_singleton] at hq
          subst hq
          simp
      · rw [length_fsAppend]
        show x.fs.inodes.length < (x.fs.inodes ++ [[]]).length
        simp
  · -- no rotation: append to the current writer's file
    next hcond =>
    refine ⟨h1, ?_, ?_, h4, ?_, ?_, h7, h8⟩
    · intro p hp
      rw [lookupPath_fsAppend]
      exact h2 p hp
    · intro p hp i hi
      have hwi : x.writer ≠ i := (h3 p hp i hi).2
      refine ⟨?_, hwi⟩
      rw [read_fsAppend_ne _ _ _ _ (fun hc => hwi hc.symm)]
      exact (h3 p hp i hi).1
    · intro q hq
      rw [dir_fsAppend] at hq
      rw [length_fsAppend]
      exact h5 q hq
    · rw [length_fsAppend]
      exact h6

/-! ### Compaction pass lemmas -/

/-- The rewrite loop over one segment's lines: it preserves the pass
invariant and appends exactly the timestamp-matched `Put` records to the
journal. -/
theorem compactLines_pass (s : KvStore)
    (hcs : ∀ p ∈ sortedSplitList s.fs, p ≤ s.current_split) :
    ∀ (es : List Entry) (x : KvStore), PassInv s x →
      ∀ y, compactLines x es = .ok y →
        PassInv s y ∧ y.journal = x.journal ++ liveRewrites s.keydir es := by
  intro es
  induction es with
  | nil =>
    intro x hinv y hy
    simp only [compactLines] at hy
    cases hy
    exact ⟨hinv, by simp [liveRewrites]⟩
  | cons e rest ih =>
    intro x hinv y hy
    cases e with
    | junk n => simp [compactLines] at hy
    | good c =>
      cases c with
      | set k v t =>
        simp only [compactLines, hinv.1] at hy
        cases hkd : kdLookup s.keydir k with
        | none =>
          rw [hkd] at hy
          obtain ⟨hinv', hj⟩ := ih x hinv y hy
          refine ⟨hinv', ?_⟩
          rw [hj]
          simp [liveRewrites, tsMatches, hkd]
        | some m0 =>
          cases m0 with
          | none =>
            rw [hkd] at hy
            obtain ⟨hinv', hj⟩ := ih x hinv y hy
            refine ⟨hinv', ?_⟩
            rw [hj]
            simp [liveRewrites, tsMatches, hkd]
          | some m =>
            rw [hkd] at hy
            dsimp only at hy
            by_cases htm : m.timestamp = t
            · rw [if_pos htm] at hy
              obtain ⟨hinv', hj⟩ :=
                ih (write_to_log x (Command.set k v t)).1
                  (wtl_passinv s x (Command.set k v t) hcs hinv) y hy
              refine ⟨hinv', ?_⟩
              rw [hj, wtl_journal]
              simp [liveRewrites, tsMatches, hkd, htm]
            · rw [if_neg htm] at hy
              obtain ⟨hinv', hj⟩ := ih x hinv y hy
              refine ⟨hinv', ?_⟩
              rw [hj]
              simp [liveRewrites, tsMatches, hkd, htm]
      | remove k v t =>
        simp only [compactLines] at hy
        obtain ⟨hinv', hj⟩ := ih x hinv y hy
        refine ⟨hinv', ?_⟩
        rw [hj]
        simp [liveRewrites]
      | get k =>
        simp only [compactLines] at hy
        obtain ⟨hinv', hj⟩ := ih x hinv y hy
        refine ⟨hinv', ?_⟩
        rw [hj]
        simp [liveRewrites]

/-- The rewrite loop over the listed segments. -/
theorem compactSegs_pass (s : KvStore)
    (hcs : ∀ p ∈ sortedSplitList s.fs, p ≤ s.current_split) :
    ∀ (L : List Nat) (x : KvStore), (∀ p ∈ L, p ∈ sortedSplitList s.fs) →
      PassInv s x → ∀ y, compactSegs x L = .ok y →
        PassInv s y ∧ y.journal = x.journal ++ segRewrites s.keydir s.fs L := by
  intro L
  induction L with
  | nil =>
    intro x _ hinv y hy
    simp only [compactSegs] at hy
    cases hy
    exact ⟨hinv, by simp [segRewrites]⟩
  | cons i rest ih =>
    intro x hsub hinv y hy
    have hi : i ∈ sortedSplitList s.fs := hsub i (List.mem_cons_self i rest)
    have hlx : Fs.lookupPath x.fs i = Fs.lookupPath s.fs i := hinv.2.1 i hi
    simp only [compactSegs] at hy
    cases hls : Fs.lookupPath s.fs i with
    | none =>
      rw [hlx, hls] at hy
      cases hy
    | some ino =>
      rw [hlx, hls] at hy
      dsimp only at hy
      have hrd := (hinv.2.2.1 i hi ino hls).1
      rw [hrd] at hy
      cases hcl : compactLines x (Fs.read s.fs ino) with
      | error e =>
        rw [hcl] at hy
        cases hy
      | ok x' =>
        rw [hcl] at hy
        obtain ⟨hinv', hj'⟩ := compactLines_pass s hcs _ x hinv x' hcl
        obtain ⟨hinv'', hj''⟩ :=
          ih x' (fun p hp => hsub p (List.mem_cons_of_mem i hp)) hinv' y hy
        refine ⟨hinv'', ?_⟩
        rw [hj'', hj']
        simp [segRewrites, contentAtPath, hls, List.append_assoc]

/-- Deleted paths stay deleted through the rest of the deletion loop. -/
theorem deleteSegs_pres_none (L : List Nat) :
    ∀ (fs fs' : Fs) (i : Nat), Fs.lookupPath fs i = none →
      deleteSegs fs L = some fs' → Fs.lookupPath fs' i = none := by
  induction L with
  | nil =>
    intro fs fs' i hnone hdel
    simp only [deleteSegs] at hdel
    cases hdel
    exact hnone
  | cons j rest ih =>
    intro fs fs' i hnone hdel
    simp only [deleteSegs] at hdel
    cases hrm : Fs.removeFile fs j with
    | none => rw [hrm] at hdel; cases hdel
    | some fs1 =>
      rw [hrm] at hdel
      have hfs1 : Fs.lookupPath fs1 i = none := by
        unfold Fs.removeFile at hrm
        cases hlj : Fs.lookupPath fs j with
        | none => rw [hlj] at hrm; cases hrm
        | some _ =>
          rw [hlj] at hrm
          cases hrm
          exact dirLookup_erase_none _ _ _ hnone
      exact ih fs1 fs' i hfs1 hdel

/-- After the deletion loop succeeds, every listed path is gone. -/
theorem deleteSegs_lookup_none (L : List Nat) :
    ∀ (fs fs' : Fs), deleteSegs fs L = some fs' →
      ∀ i ∈ L, Fs.lookupPath fs' i = none := by
  induction L with
  | nil =>
    intro fs fs' _ i hi
    simp at hi
  | cons j rest ih =>
    intro fs fs' hdel i hi
    simp only [deleteSegs] at hdel
    cases hrm : Fs.removeFile fs j with
    | none => rw [hrm] at hdel; cases hdel
    | some fs1 =>
      rw [hrm] at hdel
      have hfs1j : Fs.lookupPath fs1 j = none := by
        unfold Fs.removeFile at hrm
        cases hlj : Fs.lookupPath fs j with
        | none => rw [hlj] at hrm; cases hrm
        | some _ =>
          rw [hlj] at hrm
          cases hrm
          exact dirLookup_erase_self _ _
      rcases List.mem_cons.mp hi with rfl | hi'
      · exact deleteSegs_pres_none rest fs1 fs' i hfs1j hdel
      · exact ih fs1 fs' hdel i hi'

/-- Master lemma about a completed compaction: the journal grows by
exactly the timestamp-matched live rewrites, every pre-existing segment
path is unlinked, the KeyDir is untouched, the segment counter only
grows, and the active-log path moves only if the counter does. -/
theorem compaction_pass (s s' : KvStore) (hwf : s.fs.Wf)
    (hcs : ∀ p ∈ sortedSplitList s.fs, p ≤ s.current_split)
    (hok : s.compaction = .ok s') :
    s'.journal = s.journal ++ compactionRewrites s ∧
    (∀ i ∈ sortedSplitList s.fs, Fs.lookupPath s'.fs i = none) ∧
    s.current_split ≤ s'.current_split ∧
    (s'.current_split = s.current_split → s'.active_log = s.active_log) ∧
    s'.keydir = s.keydir := by
  unfold KvStore.compaction at hok
  dsimp only at hok
  cases hlast : (sortedSplitList s.fs).getLast? with
  | none =>
    rw [hlast] at hok
    cases hok
  | some last =>
    rw [hlast] at hok
    dsimp only at hok
    have hmax : ∀ p ∈ sortedSplitList s.fs, p ≤ last :=
      le_getLast_of_sorted _ _ (pairwise_sortNat _) hlast
    have hmiss : Fs.lookupPath s.fs (last + 1) = none := by
      apply dirLookup_eq_none_of_not_mem
      intro hmem
      have := hmax _ ((mem_sortNat _ _).mpr hmem)
      omega
    rw [createAppend_missing _ _ hmiss] at hok
    dsimp only at hok
    set n := s.fs.inodes.length with hn
    have hinv1 : PassInv s
        { s with
          fs := { inodes := s.fs.inodes ++ [[]], dir := s.fs.dir ++ [(last + 1, n)] },
          writer := n, writerPos := 0, total_log_size := 0 } := by
      refine ⟨rfl, ?_, ?_, ?_, ?_, ?_, Nat.le_refl _, fun _ => rfl⟩
      · intro p hp
        show dirLookup (s.fs.dir ++ [(last + 1, n)]) p = Fs.lookupPath s.fs p
        cases hxp : Fs.lookupPath s.fs p with
        | some i => exact dirLookup_append_left _ _ _ _ hxp
        | none =>
          rw [dirLookup_append_right _ _ _ hxp]
          have hnp : ¬ (last + 1 = p) := by
            intro hc
            have := hmax p hp
            omega
          simp [dirLookup, hnp]
      · intro p hp i hi
        have hilt : i < n := hwf.2.2 _ (dirLookup_mem _ _ _ hi)
        constructor
        · show (s.fs.inodes ++ [[]]).getD i [] = _
          rw [getD_append_lt _ _ _ _ hilt]
          rfl
        · show ¬ (n = i)
          omega
      · show ((s.fs.dir ++ [(last + 1, n)]).map Prod.snd).Nodup
        rw [List.map_append, List.nodup_append]
        refine ⟨hwf.2.1, by simp, ?_⟩
        intro a ha hb
        simp only [List.map_cons, List.map_nil, List.mem_singleton] at hb
        subst hb
        obtain ⟨q, hq, hqa⟩ := List.mem_map.mp ha
        have := hwf.2.2 q hq
        omega
      · intro q hq
        show q.2 < (s.fs.inodes ++ [[]]).length
        rcases List.mem_append.mp hq with hq | hq
        · have := hwf.2.2 q hq
          simp only [List.length_append, List.length_singleton]
          omega
        · simp only [List.mem_singleton] at hq
          subst hq
          simp
      · show n < (s.fs.inodes ++ [[]]).length
        simp
    cases hseg : compactSegs
        { s with
          fs := { inodes := s.fs.inodes ++ [[]], dir := s.fs.dir ++ [(last + 1, n)] },
          writer := n, writerPos := 0, total_log_size := 0 }
        (sortedSplitList s.fs) with
    | error e =>
      rw [hseg] at hok
      cases hok
    | ok s2 =>
      rw [hseg] at hok
      dsimp only at hok
      obtain ⟨hinv2, hj2⟩ :=
        compactSegs_pass s hcs (sortedSplitList s.fs) _ (fun p hp => hp) hinv1 s2 hseg
      cases hdel : deleteSegs s2.fs (sortedSplitList s.fs) with
      | none =>
        rw [hdel] at hok
        cases hok
      | some fs'' =>
        rw [hdel] at hok
        cases hok
        refine ⟨?_, ?_, hinv2.2.2.2.2.2.2.1, hinv2.2.2.2.2.2.2.2, hinv2.1⟩
        · exact hj2
        · exact fun i hi => deleteSegs_lookup_none _ _ _ hdel i hi

theorem wtl_norot (s : KvStore) (c : Command)
    (h : ¬ (entrySize c + fileSize s.fs s.writer > MAX_SIZE)) :
    write_to_log s c =
      ({ s with
          fs := Fs.append s.fs s.writer (Entry.good c),
          writerPos := fileSize (Fs.append s.fs s.writer (Entry.good c)) s.writer,
          total_log_size := s.total_log_size + entrySize c,
          journal := s.journal ++ [c] }, s.writerPos) := by
  unfold write_to_log
  dsimp only
  rw [if_neg h]

/-- When the active path no longer resolves and the appended record does
not trigger rotation, `set` appends the record but then fails with an
I/O error opening the active path for the KeyDir reader. -/
theorem set_fails_ioError (s : KvStore) (key value : String) (now : Nat)
    (hmiss : Fs.lookupPath s.fs s.active_log = none)
    (hfit : entrySize (Command.set key value now) + fileSize s.fs s.writer ≤ MAX_SIZE) :
    s.set key value now = .error .ioError := by
  unfold KvStore.set
  rw [wtl_norot _ _ (by omega)]
  dsimp only
  rw [lookupPath_fsAppend, hmiss]

theorem liveRewrites_puts (kd : List (String × Option MetaData)) :
    ∀ es, ∀ c ∈ liveRewrites kd es, ∃ k v t, c = Command.set k v t := by
  intro es
  induction es with
  | nil => simp [liveRewrites]
  | cons e rest ih =>
    cases e with
    | junk n => simpa [liveRewrites] using ih
    | good c0 =>
      cases c0 with
      | set k v t =>
        intro c hc
        by_cases htm : tsMatches kd k t
        · simp only [liveRewrites, if_pos htm] at hc
          rcases List.mem_cons.mp hc with rfl | hc'
          · exact ⟨k, v, t, rfl⟩
          · exact ih c hc'
        · simp only [liveRewrites, if_neg htm] at hc
          exact ih c hc
      | remove k v t => simpa [liveRewrites] using ih
      | get k => simpa [liveRewrites] using ih

theorem compactionRewrites_puts (s : KvStore) :
    ∀ c ∈ compactionRewrites s, ∃ k v t, c = Command.set k v t := by
  unfold compactionRewrites
  generalize sortedSplitList s.fs = L
  induction L with
  | nil => simp [segRewrites]
  | cons i rest ih =>
    intro c hc
    simp only [segRewrites] at hc
    rcases List.mem_append.mp hc with hc | hc
    · exact liveRewrites_puts _ _ c hc
    · exact ih c hc

/-! ### Claim theorems on compaction (C7, C10) -/

/-- C7 (confirmed): whenever a compaction of a well-formed store runs to
completion, the sequence of records it appended through the Log Writer
is exactly the `Put` records of the old segments, in order, whose
timestamp equals the timestamp of the KeyDir's current entry for their
key (`compactionRewrites`); in particular every appended record is a
`Put` — tombstones are dropped unconditionally — and afterwards every
segment that existed before compaction began is deleted. -/
theorem compaction_rewrites_iff_ts_match_and_deletes_old (s s' : KvStore)
    (hwf : s.fs.Wf)
    (hcs : ∀ p ∈ sortedSplitList s.fs, p ≤ s.current_split)
    (hok : s.compaction = .ok s') :
    s'.journal = s.journal ++ compactionRewrites s ∧
    (∀ c ∈ compactionRewrites s, ∃ k v t, c = Command.set k v t) ∧
    (∀ i ∈ sortedSplitList s.fs, Fs.lookupPath s'.fs i = none) := by
  obtain ⟨hj, hdel, _, _, _⟩ := compaction_pass s s' hwf hcs hok
  exact ⟨hj, compactionRewrites_puts s, hdel⟩

/-- Witness for C7 at the concrete one-key store `sC`: its compaction
appends exactly the one live `Put` and unlinks the old segment. -/
theorem compaction_rewrites_iff_ts_match_and_deletes_old_witness :
    sCcomp.journal = sC.journal ++ compactionRewrites sC ∧
    (∀ i ∈ sortedSplitList sC.fs, Fs.lookupPath sCcomp.fs i = none) ∧
    compactionRewrites sC = [Command.set "a" "b" 5] := by
  have h := compaction_rewrites_iff_ts_match_and_deletes_old sC sCcomp
    (by decide) (by decide) (by decide)
  exact ⟨h.1, h.2.2, by decide⟩

/-- C10 (confirmed): when compaction completes without an internal
rotation (the segment counter is unchanged), the recorded active path
`active_log` and `current_split` are exactly the pre-compaction ones;
since the pre-compaction active path was among the listed segments, it
no longer resolves to any file; hence any following `set` whose record
does not trigger rotation appends the record and then fails with an I/O
error opening the active path. -/
theorem compaction_stale_active_log_breaks_set (s s' : KvStore)
    (hwf : s.fs.Wf)
    (hcs : ∀ p ∈ sortedSplitList s.fs, p ≤ s.current_split)
    (hok : s.compaction = .ok s')
    (hnr : s'.current_split = s.current_split)
    (hmem : s.active_log ∈ sortedSplitList s.fs) :
    s'.active_log = s.active_log ∧
    Fs.lookupPath s'.fs s'.active_log = none ∧
    ∀ key value now,
      entrySize (Command.set key value now) + fileSize s'.fs s'.writer ≤ MAX_SIZE →
      s'.set key value now = .error .ioError := by
  obtain ⟨_, hdel, _, hal, _⟩ := compaction_pass s s' hwf hcs hok
  have h1 : s'.active_log = s.active_log := hal hnr
  have h2 : Fs.lookupPath s'.fs s'.active_log = none := by
    rw [h1]
    exact hdel _ hmem
  exact ⟨h1, h2, fun key value now hfit => set_fails_ioError s' key value now h2 hfit⟩

/-- Witness for C10 at the concrete store `sC`: after its compaction the
active path still names the deleted segment `0.log` and the next
non-rotating `set` fails with an I/O error. -/
theorem compaction_stale_active_log_breaks_set_witness :
    sCcomp.active_log = sC.active_log ∧
    Fs.lookupPath sCcomp.fs sCcomp.active_log = none ∧
    sCcomp.set "z" "w" 9 = .error .ioError := by
  have h := compaction_stale_active_log_breaks_set sC sCcomp
    (by decide) (by decide) (by decide) (by decide) (by decide)
  exact ⟨h.1, h.2.1, h.2.2 "z" "w" 9 (by decide)⟩

/-! ### Replay establishes the KeyDir invariant -/

theorem getD_append_self {α : Type} (l : List α) (a d : α) :
    (l ++ [a]).getD l.length d = a := by
  induction l with
  | nil => rfl
  | cons b t ih =>
    show (b :: (t ++ [a])).getD (t.length + 1) d = a
    rw [List.getD_cons_succ]
    exact ih

/-- One segment's replay: starting from a KeyDir matching the records
already processed, it ends in a KeyDir matching those records extended
by this segment's records, leaving the file system untouched. -/
theorem replayLines_inv :
    ∀ (es : List Entry) (s : KvStore) (ino off : Nat) (R : List Command),
      (∀ k, kdHas s.keydir k = isPut (lastFor k R)) →
      (∀ c ∈ recsOf es, isGetRec c = false) →
      ∀ s', replayLines s ino off es = .ok s' →
        s'.fs = s.fs ∧ ∀ k, kdHas s'.keydir k = isPut (lastFor k (R ++ recsOf es)) := by
  intro es
  induction es with
  | nil =>
    intro s ino off R hkd _ s' hy
    simp only [replayLines] at hy
    cases hy
    refine ⟨rfl, fun k => ?_⟩
    rw [show R ++ recsOf ([] : List Entry) = R by simp [recsOf]]
    exact hkd k
  | cons e rest ih =>
    intro s ino off R hkd hng s' hy
    cases e with
    | junk n => simp [replayLines] at hy
    | good c =>
      simp only [replayLines] at hy
      have hrec : recsOf (Entry.good c :: rest) = c :: recsOf rest := rfl
      cases c with
      | set k v t =>
        dsimp only at hy
        have hkd' : ∀ k', kdHas
            (kdInsert s.keydir k (some { reader := ino, pos := off, timestamp := t }))
            k' = isPut (lastFor k' (R ++ [Command.set k v t])) := by
          intro k'
          by_cases hk : k' = k
          · subst hk
            rw [lastFor_append_single]
            simp [kdHas, kdLookup_insert_self, keyOf, isPut]
          · rw [lastFor_append_single]
            have hne : ¬ (keyOf (Command.set k v t) = k') := by
              simp only [keyOf]
              exact fun hc => hk hc.symm
            rw [if_neg hne]
            simpa [kdHas, kdLookup_insert_ne _ _ _ _ hk] using hkd k'
        obtain ⟨hfs, hmatch⟩ := ih _ ino _ (R ++ [Command.set k v t]) hkd'
          (fun c hc => hng c (by rw [hrec]; exact List.mem_cons_of_mem _ hc)) s' hy
        refine ⟨hfs, ?_⟩
        rw [hrec]
        intro k'
        rw [show R ++ Command.set k v t :: recsOf rest =
          (R ++ [Command.set k v t]) ++ recsOf rest by simp]
        exact hmatch k'
      | remove k v t =>
        dsimp only at hy
        have hkd' : ∀ k', kdHas (kdErase s.keydir k) k' =
            isPut (lastFor k' (R ++ [Command.remove k v t])) := by
          intro k'
          by_cases hk : k' = k
          · subst hk
            rw [lastFor_append_single]
            simp [kdHas, kdLookup_erase_self, keyOf, isPut]
          · rw [lastFor_append_single]
            have hne : ¬ (keyOf (Command.remove k v t) = k') := by
              simp only [keyOf]
              exact fun hc => hk hc.symm
            rw [if_neg hne]
            simpa [kdHas, kdLookup_erase_ne _ _ _ hk] using hkd k'
        obtain ⟨hfs, hmatch⟩ := ih _ ino _ (R ++ [Command.remove k v t]) hkd'
          (fun c hc => hng c (by rw [hrec]; exact List.mem_cons_of_mem _ hc)) s' hy
        refine ⟨hfs, ?_⟩
        rw [hrec]
        intro k'
        rw [show R ++ Command.remove k v t :: recsOf rest =
          (R ++ [Command.remove k v t]) ++ recsOf rest by simp]
        exact hmatch k'
      | get k =>
        have : isGetRec (Command.get k) = false := hng _ (by rw [hrec]; exact List.mem_cons_self _ _)
        simp [isGetRec] at this

/-- Replay over the listed segments. -/
theorem replaySegs_inv :
    ∀ (L : List Nat) (s : KvStore) (R : List Command),
      (∀ k, kdHas s.keydir k = isPut (lastFor k R)) →
      (∀ p ∈ L, ∀ c ∈ recsOf (contentAtPath s.fs p), isGetRec c = false) →
      ∀ s', replaySegs s L = .ok s' →
        s'.fs = s.fs ∧ ∀ k, kdHas s'.keydir k = isPut (lastFor k (R ++ segRecords s.fs L)) := by
  intro L
  induction L with
  | nil =>
    intro s R hkd _ s' hy
    simp only [replaySegs] at hy
    cases hy
    exact ⟨rfl, by simpa [segRecords] using hkd⟩
  | cons i rest ih =>
    intro s R hkd hng s' hy
    simp only [replaySegs] at hy
    cases hls : Fs.lookupPath s.fs i with
    | none =>
      rw [hls] at hy
      cases hy
    | some ino =>
      rw [hls] at hy
      dsimp only at hy
      cases hrl : replayLines s ino 0 (Fs.read s.fs ino) with
      | error e =>
        rw [hrl] at hy
        cases hy
      | ok sm =>
        rw [hrl] at hy
        have hcontent : contentAtPath s.fs i = Fs.read s.fs ino := by
          simp [contentAtPath, hls]
        obtain ⟨hfs1, hm1⟩ := replayLines_inv _ s ino 0 R hkd
          (fun c hc => hng i (List.mem_cons_self i rest) c (by rwa [hcontent])) sm hrl
        obtain ⟨hfs2, hm2⟩ := ih sm (R ++ recsOf (Fs.read s.fs ino))
          hm1
          (fun p hp c hc => hng p (List.mem_cons_of_mem i hp) c (by rwa [hfs1] at hc))
          s' hy
        refine ⟨hfs2.trans hfs1, ?_⟩
        intro k
        have hgoal := hm2 k
        rw [hfs1] at hgoal
        rw [segRecords, hcontent, show R ++ (recsOf (Fs.read s.fs ino) ++ segRecords s.fs rest) =
          (R ++ recsOf (Fs.read s.fs ino)) ++ segRecords s.fs rest by simp]
        exact hgoal

theorem mem_of_getLast?_eq (l : List Nat) (a : Nat) (h : l.getLast? = some a) :
    a ∈ l := by
  cases l with
  | nil => simp at h
  | cons b t =>
    have hne : b :: t ≠ [] := by simp
    rw [List.getLast?_eq_getLast _ hne] at h
    exact Option.some_inj.mp h ▸ List.getLast_mem hne

/-- Opening any directory holding only persisted-schema records yields a
store satisfying the KeyDir invariant. -/
theorem openStore_storeInv (fs0 : Fs) (s : KvStore) (hng : NoGetRecords fs0)
    (hok : openStore fs0 = .ok s) : StoreInv s := by
  unfold openStore at hok
  dsimp only at hok
  cases hlast : (sortedSplitList fs0).getLast? with
  | none =>
    rw [hlast] at hok
    dsimp only at hok
    have hnil : sortedSplitList fs0 = [] := by
      cases hL : sortedSplitList fs0 with
      | nil => rfl
      | cons a t =>
        rw [hL] at hlast
        have hs : (a :: t).getLast?.isSome := List.getLast?_isSome.mpr (by simp)
        rw [hlast] at hs
        simp at hs
    have hdirnil : fs0.dir = [] := by
      have hperm := sortNat_perm (fs0.dir.map Prod.fst)
      rw [show sortNat (fs0.dir.map Prod.fst) = sortedSplitList fs0 from rfl, hnil] at hperm
      exact List.map_eq_nil_iff.mp (hperm.symm.eq_nil)
    have hmiss : Fs.lookupPath fs0 0 = none := by
      unfold Fs.lookupPath
      rw [hdirnil]
      rfl
    rw [createAppend_missing _ _ hmiss] at hok
    dsimp only at hok
    rw [hnil] at hok
    simp only [replaySegs] at hok
    cases hok
    intro k
    show kdHas ([] : List (String × Option MetaData)) k = _
    have hread : Fs.read
        { inodes := fs0.inodes ++ [[]], dir := fs0.dir ++ [(0, fs0.inodes.length)] }
        fs0.inodes.length = [] := by
      unfold Fs.read
      exact getD_append_self _ _ _
    have hlk : Fs.lookupPath
        { inodes := fs0.inodes ++ [[]], dir := fs0.dir ++ [(0, fs0.inodes.length)] } 0 =
        some fs0.inodes.length := by
      unfold Fs.lookupPath
      show dirLookup (fs0.dir ++ [(0, fs0.inodes.length)]) 0 = _
      rw [hdirnil]
      simp [dirLookup]
    have hss : sortedSplitList
        { inodes := fs0.inodes ++ [[]], dir := fs0.dir ++ [(0, fs0.inodes.length)] } = [0] := by
      unfold sortedSplitList
      show sortNat ((fs0.dir ++ [(0, fs0.inodes.length)]).map Prod.fst) = [0]
      rw [hdirnil]
      rfl
    have hall : allRecords
        { inodes := fs0.inodes ++ [[]], dir := fs0.dir ++ [(0, fs0.inodes.length)] } = [] := by
      unfold allRecords
      rw [hss]
      simp only [segRecords, List.append_nil]
      unfold contentAtPath
      rw [hlk]
      dsimp only
      rw [hread]
      rfl
    rw [hall]
    simp [kdHas, kdLookup, lastFor, isPut]
  | some last =>
    rw [hlast] at hok
    dsimp only at hok
    have hmem : last ∈ sortedSplitList fs0 := mem_of_getLast?_eq _ _ hlast
    have hmemf : last ∈ fs0.dir.map Prod.fst := (mem_sortNat _ _).mp hmem
    obtain ⟨w, hw⟩ := dirLookup_isSome_of_mem _ _ hmemf
    rw [createAppend_found _ _ _ hw] at hok
    dsimp only at hok
    have hbase : ∀ k, kdHas ([] : List (String × Option MetaData)) k =
        isPut (lastFor k ([] : List Command)) := by
      intro k
      simp [kdHas, kdLookup, lastFor, isPut]
    obtain ⟨hfs, hm⟩ := replaySegs_inv (sortedSplitList fs0) _ [] hbase
      (fun p hp c hc => hng p hp c hc) s hok
    intro k
    show kdHas s.keydir k = isPut (lastFor k (allRecords s.fs))
    have hfs' : s.fs = fs0 := hfs
    rw [hfs']
    have hmk := hm k
    simp only [List.nil_append] at hmk
    exact hmk

/-! ### Appending a record to the maximal segment -/

/-- Appending a record to the file of the maximal segment appends it, in
segment-then-byte order, to the end of the record sequence. -/
theorem allRecords_fsAppend_max (fs : Fs) (w cs : Nat) (c : Command) (hwf : fs.Wf)
    (hlk : fs.lookupPath cs = some w)
    (hmax : ∀ q ∈ fs.dir, q.1 ≤ cs) :
    allRecords (Fs.append fs w (Entry.good c)) = allRecords fs ++ [c] := by
  have hcsmem : cs ∈ fs.dir.map Prod.fst :=
    List.mem_map.mpr ⟨(cs, w), dirLookup_mem _ _ _ hlk, rfl⟩
  have hbound : ∀ p ∈ sortedSplitList fs, p ≤ cs := by
    intro p hp
    obtain ⟨q, hq, rfl⟩ := List.mem_map.mp ((mem_sortNat _ _).mp hp)
    exact hmax q hq
  obtain ⟨L', hLdec, hlt⟩ := sorted_max_decomp _ cs (pairwise_sortNat _)
    (nodup_sortNat _ hwf.1) ((mem_sortNat _ _).mpr hcsmem) hbound
  have hLdec' : sortedSplitList fs = L' ++ [cs] := hLdec
  have hw : w < fs.inodes.length := hwf.2.2 _ (dirLookup_mem _ _ _ hlk)
  have hss : sortedSplitList (Fs.append fs w (Entry.good c)) = sortedSplitList fs := rfl
  unfold allRecords
  rw [hss, hLdec', segRecords_append, segRecords_append]
  have hL' : segRecords (Fs.append fs w (Entry.good c)) L' = segRecords fs L' := by
    apply segRecords_congr
    intro p hp
    unfold contentAtPath
    rw [lookupPath_fsAppend]
    cases hlp : fs.lookupPath p with
    | none => rfl
    | some i =>
      dsimp only
      have hi : i ≠ w := dirLookup_ne_of_nodup fs.dir p cs i w hwf.2.1
        (Nat.ne_of_lt (hlt p hp)) hlp hlk
      exact read_fsAppend_ne _ _ _ _ hi
  have hcspart : segRecords (Fs.append fs w (Entry.good c)) [cs] =
      segRecords fs [cs] ++ [c] := by
    simp only [segRecords, List.append_nil]
    unfold contentAtPath
    rw [lookupPath_fsAppend, hlk]
    dsimp only
    rw [read_fsAppend_self _ _ _ hw, recsOf_append]
    rfl
  rw [hL', hcspart, ← List.append_assoc]

/-- Rotating to the fresh segment `cs + 1` and writing a record there
also appends it to the end of the record sequence. -/
theorem allRecords_rot_fresh (fs : Fs) (cs : Nat) (c : Command) (hwf : fs.Wf)
    (hmax : ∀ q ∈ fs.dir, q.1 ≤ cs) :
    allRecords (Fs.append
      { inodes := fs.inodes ++ [[]], dir := fs.dir ++ [(cs + 1, fs.inodes.length)] }
      fs.inodes.length (Entry.good c)) = allRecords fs ++ [c] := by
  set n := fs.inodes.length with hn
  set fsmid : Fs :=
    { inodes := fs.inodes ++ [[]], dir := fs.dir ++ [(cs + 1, n)] } with hfsmid
  have hmiss : dirLookup fs.dir (cs + 1) = none := by
    apply dirLookup_eq_none_of_not_mem
    intro hc
    obtain ⟨q, hq, hq1⟩ := List.mem_map.mp hc
    have := hmax q hq
    omega
  have hss2 : sortedSplitList (Fs.append fsmid n (Entry.good c)) =
      sortedSplitList fs ++ [cs + 1] := by
    show sortNat (fsmid.dir.map Prod.fst) = _
    rw [hfsmid]
    show sortNat ((fs.dir ++ [(cs + 1, n)]).map Prod.fst) = _
    rw [List.map_append]
    exact sortNat_append_single _ _ (fun y hy => by
      obtain ⟨q, hq, rfl⟩ := List.mem_map.mp hy
      exact Nat.lt_succ_of_le (hmax q hq))
  unfold allRecords
  rw [hss2, segRecords_append]
  have hmain : segRecords (Fs.append fsmid n (Entry.good c)) (sortedSplitList fs) =
      segRecords fs (sortedSplitList fs) := by
    apply segRecords_congr
    intro p hp
    have hple : p ≤ cs := by
      obtain ⟨q, hq, rfl⟩ := List.mem_map.mp ((mem_sortNat _ _).mp hp)
      exact hmax q hq
    unfold contentAtPath
    rw [lookupPath_fsAppend]
    have hlok : fsmid.lookupPath p = fs.lookupPath p := by
      rw [hfsmid]
      show dirLookup (fs.dir ++ [(cs + 1, n)]) p = dirLookup fs.dir p
      cases hlp : dirLookup fs.dir p with
      | some i => exact dirLookup_append_left _ _ _ _ hlp
      | none =>
        rw [dirLookup_append_right _ _ _ hlp]
        have hne : ¬ (cs + 1 = p) := by omega
        simp [dirLookup, hne]
    rw [hlok]
    cases hlp : fs.lookupPath p with
    | none => rfl
    | some i =>
      dsimp only
      have hilt : i < n := hwf.2.2 _ (dirLookup_mem _ _ _ hlp)
      rw [read_fsAppend_ne _ _ _ _ (by omega : i ≠ n)]
      show (fs.inodes ++ [[]]).getD i [] = _
      rw [getD_append_lt _ _ _ _ hilt]
      rfl
  have hnew : segRecords (Fs.append fsmid n (Entry.good c)) [cs + 1] = [c] := by
    simp only [segRecords, List.append_nil]
    unfold contentAtPath
    have hlk2 : (Fs.append fsmid n (Entry.good c)).lookupPath (cs + 1) = some n := by
      rw [lookupPath_fsAppend, hfsmid]
      show dirLookup (fs.dir ++ [(cs + 1, n)]) (cs + 1) = some n
      rw [dirLookup_append_right _ _ _ hmiss]
      simp [dirLookup]
    rw [hlk2]
    dsimp only
    have hmidlen : n < fsmid.inodes.length := by
      rw [hfsmid]
      show n < (fs.inodes ++ [[]]).length
      simp [hn]
    rw [read_fsAppend_self _ _ _ hmidlen]
    have hmid : fsmid.read n = [] := by
      rw [hfsmid]
      show (fs.inodes ++ [[]]).getD fs.inodes.length [] = []
      exact getD_append_self _ _ _
    rw [hmid]
    rfl
  rw [hmain, hnew]

/-- To check the KeyDir invariant it is enough to check it on the keys
appearing in the KeyDir or in some record: all other keys have neither
an index entry nor a record. -/
theorem storeInv_of_keys (s : KvStore)
    (hk : ∀ k ∈ s.keydir.map Prod.fst ++ (allRecords s.fs).map keyOf,
      kdHas s.keydir k = isPut (lastFor k (allRecords s.fs))) : StoreInv s := by
  intro k
  by_cases h1 : k ∈ s.keydir.map Prod.fst ++ (allRecords s.fs).map keyOf
  · exact hk k h1
  · have hnk : k ∉ s.keydir.map Prod.fst := fun hc => h1 (List.mem_append_left _ hc)
    have hnr : ∀ c ∈ allRecords s.fs, keyOf c ≠ k := by
      intro c hc hkc
      exact h1 (List.mem_append_right _ (hkc ▸ List.mem_map_of_mem keyOf hc))
    rw [lastFor_none_of_not_mem _ _ hnr]
    simp [kdHas, kdLookup_none_of_not_mem _ _ hnk, isPut]

theorem wtl_rot_missing (s : KvStore) (c : Command)
    (h : entrySize c + fileSize s.fs s.writer > MAX_SIZE)
    (hm : Fs.lookupPath s.fs (s.current_split + 1) = none) :
    write_to_log s c =
      ({ s with
          fs := Fs.append
            { inodes := s.fs.inodes ++ [[]],
              dir := s.fs.dir ++ [(s.current_split + 1, s.fs.inodes.length)] }
            s.fs.inodes.length (Entry.good c),
          writer := s.fs.inodes.length,
          writerPos := fileSize
            (Fs.append
              { inodes := s.fs.inodes ++ [[]],
                dir := s.fs.dir ++ [(s.current_split + 1, s.fs.inodes.length)] }
              s.fs.inodes.length (Entry.good c)) s.fs.inodes.length,
          current_split := s.current_split + 1,
          active_log := s.current_split + 1,
          total_log_size := s.total_log_size + entrySize c,
          journal := s.journal ++ [c] }, s.writerPos) := by
  unfold write_to_log
  dsimp only
  rw [if_pos h, createAppend_missing _ _ hm]

/-! ### Preservation of the KeyDir invariant by set and remove -/

/-- A completing `set` that does not cross the compaction threshold
preserves the KeyDir invariant and the bookkeeping consistency. -/
theorem set_preserves_inv (s : KvStore) (key value : String) (now : Nat) (s' : KvStore)
    (hswf : SWf s) (hinv : StoreInv s)
    (hthr : s.total_log_size + entrySize (Command.set key value now) ≤ COMPACTION_THRESHOLD)
    (hok : s.set key value now = .ok s') : StoreInv s' ∧ SWf s' := by
  obtain ⟨hwf, hlk, hal, hmax⟩ := hswf
  unfold KvStore.set at hok
  by_cases hrot : entrySize (Command.set key value now) + fileSize s.fs s.writer > MAX_SIZE
  · have hm : Fs.lookupPath s.fs (s.current_split + 1) = none := by
      apply dirLookup_eq_none_of_not_mem
      intro hc
      obtain ⟨q, hq, hq1⟩ := List.mem_map.mp hc
      have := hmax q hq
      omega
    rw [wtl_rot_missing _ _ hrot hm] at hok
    dsimp only at hok
    have hlk2 : Fs.lookupPath (Fs.append
        { inodes := s.fs.inodes ++ [[]],
          dir := s.fs.dir ++ [(s.current_split + 1, s.fs.inodes.length)] }
        s.fs.inodes.length (Entry.good (Command.set key value now)))
        (s.current_split + 1) = some s.fs.inodes.length := by
      rw [lookupPath_fsAppend]
      show dirLookup (s.fs.dir ++ [(s.current_split + 1, s.fs.inodes.length)])
        (s.current_split + 1) = _
      rw [dirLookup_append_right _ _ _ hm]
      simp [dirLookup]
    rw [hlk2] at hok
    dsimp only at hok
    rw [if_neg (by omega)] at hok
    cases hok
    have hall := allRecords_rot_fresh s.fs s.current_split (Command.set key value now) hwf hmax
    constructor
    · intro k'
      show kdHas (kdInsert s.keydir key _) k' = isPut (lastFor k' _)
      rw [hall, lastFor_append_single]
      by_cases hk : k' = key
      · subst hk
        rw [if_pos (by simp [keyOf])]
        simp [kdHas, kdLookup_insert_self, isPut]
      · rw [if_neg (by simp only [keyOf]; exact fun hc => hk hc.symm)]
        rw [show kdHas (kdInsert s.keydir key
            (some { reader := s.fs.inodes.length, pos := s.writerPos, timestamp := now })) k' =
            kdHas s.keydir k' from by
          simp [kdHas, kdLookup_insert_ne _ _ _ _ hk]]
        exact hinv k'
    · refine ⟨⟨?_, ?_, ?_⟩, ?_, rfl, ?_⟩
      · show ((s.fs.dir ++ [(s.current_split + 1, s.fs.inodes.length)]).map Prod.fst).Nodup
        rw [List.map_append, List.nodup_append]
        refine ⟨hwf.1, by simp, ?_⟩
        intro a ha hb
        simp only [List.map_cons, List.map_nil, List.mem_singleton] at hb
        subst hb
        obtain ⟨q, hq, hqa⟩ := List.mem_map.mp ha
        have := hmax q hq
        omega
      · show ((s.fs.dir ++ [(s.current_split + 1, s.fs.inodes.length)]).map Prod.snd).Nodup
        rw [List.map_append, List.nodup_append]
        refine ⟨hwf.2.1, by simp, ?_⟩
        intro a ha hb
        simp only [List.map_cons, List.map_nil, List.mem_singleton] at hb
        subst hb
        obtain ⟨q, hq, hqa⟩ := List.mem_map.mp ha
        have := hwf.2.2 q hq
        omega
      · intro q hq
        rw [dir_fsAppend] at hq
        rw [length_fsAppend]
        show q.2 < (s.fs.inodes ++ [[]]).length
        rcases List.mem_append.mp hq with hq | hq
        · have := hwf.2.2 q hq
          simp only [List.length_append, List.length_singleton]
          omega
        · simp only [List.mem_singleton] at hq
          subst hq
          simp
      · exact hlk2
      · intro q hq
        rw [dir_fsAppend] at hq
        show q.1 ≤ s.current_split + 1
        rcases List.mem_append.mp hq with hq | hq
        · have := hmax q hq
          omega
        · simp only [List.mem_singleton] at hq
          subst hq
          simp
  · rw [wtl_norot _ _ hrot] at hok
    dsimp only at hok
    rw [lookupPath_fsAppend, hal, hlk] at hok
    dsimp only at hok
    rw [if_neg (by omega)] at hok
    cases hok
    have hall := allRecords_fsAppend_max s.fs s.writer s.current_split
      (Command.set key value now) hwf hlk hmax
    constructor
    · intro k'
      show kdHas (kdInsert s.keydir key _) k' = isPut (lastFor k' _)
      rw [hall, lastFor_append_single]
      by_cases hk : k' = key
      · subst hk
        rw [if_pos (by simp [keyOf])]
        simp [kdHas, kdLookup_insert_self, isPut]
      · rw [if_neg (by simp only [keyOf]; exact fun hc => hk hc.symm)]
        rw [show kdHas (kdInsert s.keydir key
            (some { reader := s.writer, pos := s.writerPos, timestamp := now })) k' =
            kdHas s.keydir k' from by
          simp [kdHas, kdLookup_insert_ne _ _ _ _ hk]]
        exact hinv k'
    · refine ⟨⟨hwf.1, hwf.2.1, ?_⟩, ?_, rfl, ?_⟩
      · intro q hq
        rw [dir_fsAppend] at hq
        rw [length_fsAppend]
        exact hwf.2.2 q hq
      · rw [lookupPath_fsAppend]
        exact hlk
      · intro q hq
        rw [dir_fsAppend] at hq
        exact hmax q hq

/-- A completing `remove` that does not cross the compaction threshold
preserves the KeyDir invariant and the bookkeeping consistency. -/
theorem remove_preserves_inv (s : KvStore) (key : String) (now : Nat) (s' : KvStore)
    (hswf : SWf s) (hinv : StoreInv s)
    (hthr : s.total_log_size + removedEntrySize s key now ≤ COMPACTION_THRESHOLD)
    (hok : s.remove key now = .ok s') : StoreInv s' ∧ SWf s' := by
  obtain ⟨hwf, hlk, hal, hmax⟩ := hswf
  unfold KvStore.remove at hok
  cases hkd : kdLookup s.keydir key with
  | none =>
    rw [hkd] at hok
    cases hok
  | some m0 =>
    cases m0 with
    | none =>
      rw [hkd] at hok
      cases hok
    | some meta =>
      rw [hkd] at hok
      dsimp only at hok
      cases hrl : readLineAt (Fs.read s.fs meta.reader) meta.pos with
      | none =>
        rw [hrl] at hok
        cases hok
        exact ⟨hinv, ⟨hwf, hlk, hal, hmax⟩⟩
      | some e =>
        rw [hrl] at hok
        cases e with
        | junk n =>
          cases hok
          exact ⟨hinv, ⟨hwf, hlk, hal, hmax⟩⟩
        | good c0 =>
          cases c0 with
          | get k2 =>
            cases hok
            exact ⟨hinv, ⟨hwf, hlk, hal, hmax⟩⟩
          | remove k2 v2 t2 =>
            cases hok
            exact ⟨hinv, ⟨hwf, hlk, hal, hmax⟩⟩
          | set k2 v2 t2 =>
            dsimp only at hok
            have hres : removedEntrySize s key now =
                entrySize (Command.remove k2 v2 now) := by
              unfold removedEntrySize
              rw [hkd]
              dsimp only
              rw [hrl]
            rw [hres] at hthr
            by_cases hrot : entrySize (Command.remove k2 v2 now) +
                fileSize s.fs s.writer > MAX_SIZE
            · have hm : Fs.lookupPath s.fs (s.current_split + 1) = none := by
                apply dirLookup_eq_none_of_not_mem
                intro hc
                obtain ⟨q, hq, hq1⟩ := List.mem_map.mp hc
                have := hmax q hq
                omega
              rw [wtl_rot_missing _ _ hrot hm] at hok
              dsimp only at hok
              rw [if_neg (by omega)] at hok
              cases hok
              have hall := allRecords_rot_fresh s.fs s.current_split
                (Command.remove k2 v2 now) hwf hmax
              constructor
              · intro k'
                show kdHas (kdInsert s.keydir k2 none) k' = isPut (lastFor k' _)
                rw [hall, lastFor_append_single]
                by_cases hk : k' = k2
                · subst hk
                  rw [if_pos (by simp [keyOf])]
                  simp [kdHas, kdLookup_insert_self, isPut]
                · rw [if_neg (by simp only [keyOf]; exact fun hc => hk hc.symm)]
                  rw [show kdHas (kdInsert s.keydir k2 none) k' = kdHas s.keydir k' from by
                    simp [kdHas, kdLookup_insert_ne _ _ _ _ hk]]
                  exact hinv k'
              · refine ⟨⟨?_, ?_, ?_⟩, ?_, rfl, ?_⟩
                · show ((s.fs.dir ++
                    [(s.current_split + 1, s.fs.inodes.length)]).map Prod.fst).Nodup
                  rw [List.map_append, List.nodup_append]
                  refine ⟨hwf.1, by simp, ?_⟩
                  intro a ha hb
                  simp only [List.map_cons, List.map_nil, List.mem_singleton] at hb
                  subst hb
                  obtain ⟨q, hq, hqa⟩ := List.mem_map.mp ha
                  have := hmax q hq
                  omega
                · show ((s.fs.dir ++
                    [(s.current_split + 1, s.fs.inodes.length)]).map Prod.snd).Nodup
                  rw [List.map_append, List.nodup_append]
                  refine ⟨hwf.2.1, by simp, ?_⟩
                  intro a ha hb
                  simp only [List.map_cons, List.map_nil, List.mem_singleton] at hb
                  subst hb
                  obtain ⟨q, hq, hqa⟩ := List.mem_map.mp ha
                  have := hwf.2.2 q hq
                  omega
                · intro q hq
                  rw [dir_fsAppend] at hq
                  rw [length_fsAppend]
                  show q.2 < (s.fs.inodes ++ [[]]).length
                  rcases List.mem_append.mp hq with hq | hq
                  · have := hwf.2.2 q hq
                    simp only [List.length_append, List.length_singleton]
                    omega
                  · simp only [List.mem_singleton] at hq
                    subst hq
                    simp
                · rw [lookupPath_fsAppend]
                  show dirLookup (s.fs.dir ++
                    [(s.current_split + 1, s.fs.inodes.length)]) (s.current_split + 1) = _
                  rw [dirLookup_append_right _ _ _ hm]
                  simp [dirLookup]
                · intro q hq
                  rw [dir_fsAppend] at hq
                  show q.1 ≤ s.current_split + 1
                  rcases List.mem_append.mp hq with hq | hq
                  · have := hmax q hq
                    omega
                  · simp only [List.mem_singleton] at hq
                    subst hq
                    simp
            · rw [wtl_norot _ _ hrot] at hok
              dsimp only at hok
              rw [if_neg (by omega)] at hok
              cases hok
              have hall := allRecords_fsAppend_max s.fs s.writer s.current_split
                (Command.remove k2 v2 now) hwf hlk hmax
              constructor
              · intro k'
                show kdHas (kdInsert s.keydir k2 none) k' = isPut (lastFor k' _)
                rw [hall, lastFor_append_single]
                by_cases hk : k' = k2
                · subst hk
                  rw [if_pos (by simp [keyOf])]
                  simp [kdHas, kdLookup_insert_self, isPut]
                · rw [if_neg (by simp only [keyOf]; exact fun hc => hk hc.symm)]
                  rw [show kdHas (kdInsert s.keydir k2 none) k' = kdHas s.keydir k' from by
                    simp [kdHas, kdLookup_insert_ne _ _ _ _ hk]]
                  exact hinv k'
              · refine ⟨⟨hwf.1, hwf.2.1, ?_⟩, ?_, hal, ?_⟩
                · intro q hq
                  rw [dir_fsAppend] at hq
                  rw [length_fsAppend]
                  exact hwf.2.2 q hq
                · rw [lookupPath_fsAppend]
                  exact hlk
                · intro q hq
                  rw [dir_fsAppend] at hq
                  exact hmax q hq

/-! ### Claim theorems on the KeyDir invariant (C8) -/

/-- C8 (amended): a live KeyDir entry exists for a key iff the most
recent record for that key across all segments, in segment-then-byte
order, is a `Put`.  This holds after `open` completes on any directory
of persisted-schema records, and it is preserved by every completing
`set` and `remove` provided the store's bookkeeping is consistent (the
writer sits on the highest-indexed segment — true from `open` until a
compaction runs) and the call stays below the compaction threshold.
After a compaction the stale `active_log` makes the next non-rotating
`set` append its `Put` and then fail before indexing it; the appended
record persists in the caller's store (`&mut self`), and from then on
the invariant is violated at later completion points — the
counterexample reaches such a point from an empty directory. -/
theorem keydir_invariant_open_set_remove :
    (∀ fs0 s, NoGetRecords fs0 → openStore fs0 = .ok s → StoreInv s) ∧
    (∀ s key value now s', SWf s → StoreInv s →
      s.total_log_size + entrySize (Command.set key value now) ≤ COMPACTION_THRESHOLD →
      s.set key value now = .ok s' → StoreInv s' ∧ SWf s') ∧
    (∀ s key now s', SWf s → StoreInv s →
      s.total_log_size + removedEntrySize s key now ≤ COMPACTION_THRESHOLD →
      s.remove key now = .ok s' → StoreInv s' ∧ SWf s') :=
  ⟨fun fs0 s hng hok => openStore_storeInv fs0 s hng hok,
   fun s key value now s' h1 h2 h3 h4 => set_preserves_inv s key value now s' h1 h2 h3 h4,
   fun s key now s' h1 h2 h3 h4 => remove_preserves_inv s key now s' h1 h2 h3 h4⟩

/-- Counterexample to C8 as stated, along a fully reachable execution
from an empty directory: 210 successful sets cross the compaction
threshold, compaction leaves `active_log` naming a deleted segment, the
next `set "x"` appends its `Put` and then fails with an I/O error
before inserting the KeyDir entry (the append persists in the caller's
store), and the following `remove "a"` completes with `Ok` — at that
completion point the most recent record for `"x"` is a `Put` while no
KeyDir entry for `"x"` exists, violating the invariant. -/
theorem keydir_invariant_broken_at_reachable_remove :
    isOkB c8chainRes = true ∧
    c8post.set "x" "v" 3 = .error .ioError ∧
    c8removeRes = .ok c8viol ∧
    kdHas c8viol.keydir "x" = false ∧
    isPut (lastFor "x" (allRecords c8viol.fs)) = true ∧
    ¬ StoreInv c8viol := by
  refine ⟨by decide, by decide, by decide, by decide, by decide,
    fun h => absurd (h "x") (by decide)⟩

/-- Witness for the amended C8 along a concrete open–set–remove chain. -/
theorem keydir_invariant_open_set_remove_witness :
    StoreInv sW ∧ (StoreInv sW2 ∧ SWf sW2) ∧ (StoreInv sW3 ∧ SWf sW3) := by
  have h1 : StoreInv sW :=
    keydir_invariant_open_set_remove.1 fsG sW (by decide) (by decide)
  have hswf : SWf sW := by decide
  have h2 := keydir_invariant_open_set_remove.2.1 sW "x" "y" 3 sW2 hswf h1
    (by decide) (by decide)
  have h3 := keydir_invariant_open_set_remove.2.2 sW2 "x" 4 sW3 h2.2 h2.1
    (by decide) (by decide)
  exact ⟨h1, h2, h3⟩

/-! ### Claim theorems on concrete scenarios -/

/-- C2 (refuted on the code): at the store holding 4094 bytes in its
active segment, appending one more record through the Log Writer rotates
to a new segment and writes the record at byte offset 0 of that new
segment — but the returned offset is 4094, the old segment's write
position, not an offset within the segment the record was actually
written to (offset 4094 does not address any record start in the new
segment). -/
theorem write_offset_wrong_segment_after_rotation :
    (write_to_log preRot (Command.set "k" "vv" 90)).2 = 4094 ∧
    (write_to_log preRot (Command.set "k" "vv" 90)).1.active_log = preRot.active_log + 1 ∧
    readLineAt
      (Fs.read (write_to_log preRot (Command.set "k" "vv" 90)).1.fs
        (write_to_log preRot (Command.set "k" "vv" 90)).1.writer) 0 =
      some (Entry.good (Command.set "k" "vv" 90)) ∧
    readLineAt
      (Fs.read (write_to_log preRot (Command.set "k" "vv" 90)).1.fs
        (write_to_log preRot (Command.set "k" "vv" 90)).1.writer) 4094 = none := by
  decide

/-- C3 (refuted on the code): replay at open treats a malformed or
partial trailing line as a fatal error — opening a directory whose only
segment is one well-formed record followed by a 7-byte partial line
fails with the propagated parse error, while opening the directory with
just the well-formed prefix succeeds and serves the key. -/
theorem replay_fails_on_partial_trailing_line :
    openStore fsJ = .error .parseError ∧
    isOkB (openStore fsG) = true ∧
    (orDead (openStore fsG)).get "a" = .ok (some "b") := by
  decide

/-- C5 (refuted on the code): after 89 successful small sets, one more
successful `set "k" "vv"` triggers rotation (the segment counter
advances) and the immediately following `get "k"` returns a format error
instead of `Some "vv")` — the KeyDir entry carries the old segment's
offset into the new segment. -/
theorem set_then_get_fails_after_rotation :
    isOkB preRotRes = true ∧
    isOkB rotRes = true ∧
    rotStore.current_split = preRot.current_split + 1 ∧
    rotStore.get "k" = .error .incorrectFormat ∧
    rotStore.get "k" ≠ .ok (some "vv") := by
  decide

/-- C6 (refuted on the code): on the post-rotation store, the
previously-set key `"k"` has a live KeyDir entry and `remove "k"`
returns `Ok` — yet afterwards `get "k"` returns a format error rather
than absent, and a second `remove "k"` also returns `Ok` rather than
failing with `KeyNotFound`. -/
theorem remove_then_get_not_absent_after_rotation :
    isOkB remRes = true ∧
    kdHas rotStore.keydir "k" = true ∧
    remStore.get "k" = .error .incorrectFormat ∧
    remStore.get "k" ≠ .ok none ∧
    remStore.remove "k" 96 = .ok remStore := by
  decide

/-- C4 (refuted on the code): every operation of the sequence — 89 sets
of `"a"`, one rotating set of `"k"`, then `remove "k"` — returns `Ok`,
yet reopening the resulting directory yields a store where `get "k"`
returns `Some "vv"` although the last successful operation on `"k"` was
the remove. -/
theorem reopen_resurrects_removed_key :
    isOkB preRotRes = true ∧
    isOkB rotRes = true ∧
    isOkB remRes = true ∧
    isOkB (openStore remStore.fs) = true ∧
    reopenedStore.get "k" = .ok (some "vv") ∧
    reopenedStore.get "k" ≠ .ok none := by
  decide

/-- C9 (confirmed): on the post-rotation store, the KeyDir entry for
`"k"` points at a location that holds no record start, and `remove "k"`
returns `Ok` with the store completely unchanged — no tombstone
appended, the stale entry kept — after which `get "k"` still resolves
that stale entry, yielding the format error rather than absent. -/
theorem remove_silently_ignores_corrupt_entry :
    kdLookup rotStore.keydir "k" =
      some (some { reader := 1, pos := 4094, timestamp := 90 }) ∧
    readLineAt (Fs.read rotStore.fs 1) 4094 = none ∧
    remRes = .ok rotStore ∧
    kdLookup remStore.keydir "k" =
      some (some { reader := 1, pos := 4094, timestamp := 90 }) ∧
    remStore.get "k" = .error .incorrectFormat := by
  decide

/-- C1 (refuted on the code): compacting the one-key store `sC`
succeeds, rewrites the live record to the fresh segment `1.log`
(inode 1), and deletes the pre-compaction segment `0.log` — yet the
post-compaction KeyDir entry for `"a"` still references inode 0 at
offset 0, the deleted pre-compaction segment, and no directory entry
links inode 0 any more: the index was not reconciled to the freshly
written location. -/
theorem keydir_stale_after_compaction :
    isOkB sC.compaction = true ∧
    kdLookup sCcomp.keydir "a" = some (some { reader := 0, pos := 0, timestamp := 5 }) ∧
    Fs.lookupPath sCcomp.fs 0 = none ∧
    (∀ q ∈ sCcomp.fs.dir, q.2 ≠ 0) ∧
    sCcomp.fs.dir = [(1, 1)] ∧
    Fs.read sCcomp.fs 1 = [Entry.good (Command.set "a" "b" 5)] := by
  decide

end CrabKvs
